import Mathlib

/-!
Shallow embedding of `subsync` (src/main.rs) in Lean 4.

The program is a single `main` plus one helper `synchronize_folder`.  We model
the filesystem shallowly: a directory listing is a `List Entry` where an
`Entry` carries the file name (last path component), its kind (directory,
regular file with abstract byte content, or symbolic link with its target
path and a liveness flag standing for whether the link target exists), and
its size in bytes.  Paths are lists of components.  All prompt answers
(selection strategy, sort type, keyword, manual pick) are parameters, so the
whole run is a pure function from the initial filesystem and the prompt
answers to the resulting filesystem, the emitted prompt/pairing events, and
the final result (summary or propagated error).

Modelling notes, all deliberate and commented where used:
- Rust `OsString` byte ordering is modelled as codepoint-lexicographic
  ordering on the name's characters; `str::to_lowercase` is modelled with
  `Char.toLower` per character.  `sort_unstable_by_key` is modelled by a
  deterministic sort (insertion sort) by the same key.
- A directory listing is treated as a finite map from names to entries; the
  order of a `List Entry` is not meaningful, and theorems about resulting
  listings are stated via `lookupEntry`.
- `Path::exists` follows symlinks, so for a symlink entry it returns the
  `live` flag; `std::os::unix::fs::symlink` fails with `EEXIST` whenever any
  entry (even a dangling link) occupies the target name; `fs::remove_file`
  fails on a directory; `fs::copy` fails when the source or the existing
  target is a directory and otherwise replaces the target's bytes.  Copying
  onto an existing symlink (which on Unix would write through the link) is
  modelled as replacing the entry itself; no claim depends on that case.
-/

namespace Subsync

/-- Path as a list of components; only the last component (file name) is ever
inspected by the program. -/
abbrev FPath := List String

/-- Splits a character list at its last dot: returns the part before and
after the last `'.'`, or `none` when no dot occurs. -/
def lastDotSplit : List Char → Option (List Char × List Char)
  | [] => none
  | c :: cs =>
    match lastDotSplit cs with
    | some (b, a) => some (c :: b, a)
    | none => if c = '.' then some ([], cs) else none

/-- Rust `Path::file_stem` on a file name: the part before the last dot,
except that a name whose only dot is leading (such as `.bashrc`) is its own
stem. -/
def fileStem (s : String) : String :=
  match lastDotSplit s.data with
  | some (b, _) => if b = [] then s else ⟨b⟩
  | none => s

/-- Rust `Path::extension` on a file name: the part after the last dot,
`none` when there is no dot or the only dot is leading. -/
def extOf (s : String) : Option String :=
  match lastDotSplit s.data with
  | some (b, a) => if b = [] then none else some ⟨a⟩
  | none => none

/-- Lowercases a name character by character (model of `str::to_lowercase`). -/
def lowerName (s : String) : String := ⟨s.data.map Char.toLower⟩

/-- Boolean test for `needle` occurring as a contiguous substring of `hay`
(model of `str::contains`). -/
def hasSubstr (hay needle : List Char) : Bool :=
  match hay with
  | [] => needle.isEmpty
  | _ :: t => needle.isPrefixOf hay || hasSubstr t needle

/-- Codepoint-lexicographic order on character lists (model of the byte
order used by `OsString` comparison). -/
def lexLe : List Char → List Char → Bool
  | [], _ => true
  | _ :: _, [] => false
  | a :: as, b :: bs => if a = b then lexLe as bs else decide (a < b)

/-- Kind of a directory entry. -/
inductive EKind
  | dir
  | regular (data : Nat)
  | symlinkTo (tgt : FPath) (live : Bool)
deriving DecidableEq

/-- One child of a directory: name (last component), kind, size in bytes. -/
structure Entry where
  name : String
  kind : EKind
  size : Nat
deriving DecidableEq

/-- Whether the entry is a directory (model of `Path::is_dir`; a symlink to a
directory is not resolved by the model and counts as a non-directory). -/
def Entry.isDirB (e : Entry) : Bool :=
  match e.kind with
  | .dir => true
  | _ => false

/-- Model of `Path::exists`, which follows symlinks: a symlink entry exists
exactly when its target does (the `live` flag); other entries exist. -/
def Entry.existsB (e : Entry) : Bool :=
  match e.kind with
  | .symlinkTo _ live => live
  | _ => true

/-- Abstract byte content of a regular file (used by the `fs::copy` model). -/
def Entry.dataOf (e : Entry) : Nat :=
  match e.kind with
  | .regular d => d
  | _ => 0

/-- Looks up the entry with the given name in a listing. -/
def lookupEntry (l : List Entry) (n : String) : Option Entry :=
  l.find? (fun e => e.name = n)

/-- Removes every entry with the given name from a listing. -/
def removeEntry (l : List Entry) (n : String) : List Entry :=
  l.filter (fun e => ¬ e.name = n)

/-- The three selection strategies offered by the first prompt
(src/main.rs lines 30-35). -/
inductive Strategy
  | alphabetical
  | size
  | manual
deriving DecidableEq

/-- The two effective sort orders; `sort_strat` in the source is never
`Manual` (lines 134-142 map the Name/Size answer, or reuse the strategy). -/
inductive SortStrat
  | byName
  | bySize
deriving DecidableEq

/-- Season or single processing mode (src/main.rs lines 47-51). -/
inductive Mode
  | season
  | single
deriving DecidableEq

/-- Derives the effective sort order from the chosen strategy and, for the
manual strategy, from the Name/Size prompt answer (src/main.rs lines
134-142). -/
def sortStratFor (strat : Strategy) (answerName : Bool) : SortStrat :=
  match strat with
  | .manual => if answerName then .byName else .bySize
  | .alphabetical => .byName
  | .size => .bySize

/-- The modelled world: shape of the output path, its listing (or the
listing of its parent when the output is a single file), the input
directory's listing, and the listings of the input's subdirectories. -/
structure FS where
  outIsDir : Bool
  outPath : FPath
  destListing : List Entry
  outParentListing : List Entry
  inPath : FPath
  inputListing : List Entry
  subListings : List (String × List Entry)
deriving DecidableEq

/-- The directory listing that receives the program's writes: the output
directory itself, or the output file's parent directory. -/
def FS.writeListing (fs : FS) : List Entry :=
  if fs.outIsDir then fs.destListing else fs.outParentListing

/-- Replaces the write listing, leaving every other component unchanged. -/
def FS.setWrite (fs : FS) (w : List Entry) : FS :=
  if fs.outIsDir then { fs with destListing := w } else { fs with outParentListing := w }

/-- Listing of the input subdirectory with the given name (model of
`read_dir(sub_dir.path())` for a child that is a directory). -/
def lookupListing (ls : List (String × List Entry)) (n : String) : List Entry :=
  ((ls.find? (fun p => p.1 = n)).map Prod.snd).getD []

/-- Mode selection (src/main.rs lines 56-66): season when the output is a
directory or every direct child of the input is a directory, else single. -/
def computeMode (fs : FS) : Mode :=
  if fs.outIsDir || fs.inputListing.all Entry.isDirB then .season else .single

/-- Filter used to build the destination index (src/main.rs line 82):
keep children that are not directories and whose extension is not `srt`. -/
def destFilterB (e : Entry) : Bool :=
  !e.isDirB && !(extOf e.name == some "srt")

/-- Model of `HashMap::insert` during `collect`: replace the value when the
key is present, otherwise add the pair. -/
def insertKV (m : List (String × FPath)) (k : String) (v : FPath) : List (String × FPath) :=
  if m.any (fun p => p.1 = k) then m.map (fun p => if p.1 = k then (k, v) else p)
  else m ++ [(k, v)]

/-- Destination index construction (src/main.rs lines 79-105): for a
directory output, map each eligible child's stem to its full path; for a
file output, a single entry keyed by the output file's stem. -/
def buildIndex (fs : FS) : List (String × FPath) :=
  if fs.outIsDir then
    (fs.destListing.filter destFilterB).foldl
      (fun m e => insertKV m (fileStem e.name) (fs.outPath ++ [e.name])) []
  else [(fileStem (fs.outPath.getLastD ""), fs.outPath)]

/-- Model of `HashMap::remove`: the removed value, if present, and the
remaining map. -/
def removeKey (m : List (String × FPath)) (k : String) : Option FPath × List (String × FPath) :=
  match m.find? (fun p => p.1 = k) with
  | some p => (some p.2, m.filter (fun q => ¬ q.1 = k))
  | none => (none, m)

/-- Keyword preprocessing (src/main.rs lines 144-149): an empty answer means
no filter, otherwise the lowercased text. -/
def mkRequiredText (s : String) : Option String :=
  if s = "" then none else some (lowerName s)

/-- Candidate filter (src/main.rs lines 232-241): the extension must be
`srt`, and when a keyword is present the lowercased file name must contain
it.  Note the source does not exclude directories here. -/
def candFilterB (rt : Option String) (e : Entry) : Bool :=
  (extOf e.name == some "srt") &&
    (rt.isNone ||
      (match rt with
       | some k => hasSubstr (lowerName e.name).data k.data
       | none => false))

/-- Order by file name used for sorting (model of
`sort_unstable_by_key(file_name)`). -/
def nameLE (a b : Entry) : Prop := lexLe a.name.data b.name.data = true

instance : DecidableRel nameLE := fun a b =>
  inferInstanceAs (Decidable (lexLe a.name.data b.name.data = true))

/-- Order by file size used for sorting (model of
`sort_unstable_by_key(metadata size)`). -/
def sizeLE (a b : Entry) : Prop := a.size ≤ b.size

instance : DecidableRel sizeLE := fun a b =>
  inferInstanceAs (Decidable (a.size ≤ b.size))

/-- Sorts a listing ascending by name. -/
def sortByName (l : List Entry) : List Entry := l.insertionSort nameLE

/-- Sorts a listing ascending by size. -/
def sortBySize (l : List Entry) : List Entry := l.insertionSort sizeLE

/-- Candidate ordering step (src/main.rs lines 257-266). -/
def sortCandidates : SortStrat → List Entry → List Entry
  | .byName, l => sortByName l
  | .bySize, l => sortBySize l

/-- Candidate selection step (src/main.rs lines 268-303): first element for
the alphabetical strategy, last for the size strategy, and the prompt
answer (an index into the displayed list) for the manual strategy. -/
def pickCandidate (strat : Strategy) (manualSel : Nat) (sorted : List Entry) : Option Entry :=
  match strat with
  | .alphabetical => sorted.head?
  | .size => sorted.getLast?
  | .manual => sorted.get? (manualSel % sorted.length)

/-- Target file name (src/main.rs lines 305-314): the destination file's
stem with the subtitle extension appended, placed in the destination file's
parent directory, which is always the run's write listing. -/
def targetNameOf (destFile : FPath) : String :=
  fileStem (destFile.getLastD "") ++ ".srt"

/-- Errors a single pairing can produce; every one of them is propagated by
`?` in the source. -/
inductive SyncError
  | emptySubtitleDir (dirName : String)
  | notADirectory (name : String)
  | fileExists (target : String)
  | isADirectory (name : String)
  | panicCase
deriving DecidableEq

/-- Errors terminating the whole run. -/
inductive RunError
  | noFiles
  | sync (e : SyncError)
  | panicCase
deriving DecidableEq

/-- Observable interaction events of a run. -/
inductive Event
  | promptStrategy
  | promptSort
  | promptKeyword
  | promptManual (destName : String)
  | pairingAttempt (subName : String)
deriving DecidableEq

/-- Overwrite handling (src/main.rs lines 316-322): when the target exists
(following symlinks) and overwrite is on, remove it; `remove_file` fails on
a directory. -/
def overwriteStep (ov : Bool) (w : List Entry) (t : String) : List Entry × Option SyncError :=
  match lookupEntry w t with
  | some e =>
    if e.existsB && ov then
      if e.isDirB then (w, some (.isADirectory t)) else (removeEntry w t, none)
    else (w, none)
  | none => (w, none)

/-- Entry resulting from a successful transfer: a byte copy of the source
for `fs::copy`, a live symbolic link to the source path for `symlink`. -/
def mkWritten (copySub : Bool) (subPath : FPath) (src : Entry) (t : String) : Entry :=
  if copySub then ⟨t, .regular src.dataOf, src.size⟩
  else ⟨t, .symlinkTo (subPath ++ [src.name]) true, src.size⟩

/-- Transfer step (src/main.rs lines 324-328): `fs::copy` replaces the bytes
at the target (failing when source or existing target is a directory);
`symlink` fails whenever any entry occupies the target name, and otherwise
records a link to the source path. -/
def writeStep (copySub : Bool) (subPath : FPath) (src : Entry) (w : List Entry) (t : String) :
    List Entry × Option SyncError :=
  if copySub then
    if src.isDirB then (w, some (.isADirectory src.name))
    else
      match lookupEntry w t with
      | some e =>
        if e.isDirB then (w, some (.isADirectory t))
        else (removeEntry w t ++ [mkWritten true subPath src t], none)
      | none => (w ++ [mkWritten true subPath src t], none)
  else
    match lookupEntry w t with
    | some _ => (w, some (.fileExists t))
    | none => (w ++ [mkWritten false subPath src t], none)

/-- Per-run configuration and collaborators threaded through the pairing
code: strategy, effective sort order, flags, keyword, the manual-choice
answer, and the input-side filesystem data. -/
structure Ctx where
  strat : Strategy
  sortStrat : SortStrat
  copySub : Bool
  overwrite : Bool
  rt : Option String
  manualSel : Nat
  inPath : FPath
  subListings : List (String × List Entry)
deriving DecidableEq

/-- The overwrite check followed by the transfer, exactly the tail of
`synchronize_folder` (src/main.rs lines 316-328): an overwrite-step error
stops before the transfer. -/
def transferStep (ctx : Ctx) (subPath : FPath) (src : Entry) (w : List Entry) (t : String) :
    List Entry × Option SyncError :=
  match overwriteStep ctx.overwrite w t with
  | (w2, some e) => (w2, some e)
  | (w2, none) => writeStep ctx.copySub subPath src w2 t

/-- Result of one pairing attempt: events, the updated write listing, and
the error if the pairing failed. -/
structure SyncOut where
  events : List Event
  w : List Entry
  err : Option SyncError
deriving DecidableEq

/-- Filtered, sorted, selected candidate of one pairing (src/main.rs lines
232-241 and 257-303 combined). -/
def chosenSrc (ctx : Ctx) (sub : List Entry) : Option Entry :=
  pickCandidate ctx.strat ctx.manualSel (sortCandidates ctx.sortStrat (sub.filter (candFilterB ctx.rt)))

/-- The manual strategy issues one extra single-choice prompt per pairing. -/
def manualEvs (ctx : Ctx) (destFile : FPath) : List Event :=
  if ctx.strat = .manual then [Event.promptManual (destFile.getLastD "")] else []

/-- Model of `synchronize_folder` (src/main.rs lines 223-331): filter the
subdirectory's children, fail when nothing remains, sort, select, then
perform the overwrite check and the transfer against the write listing. -/
def syncFolder (ctx : Ctx) (subPath : FPath) (sub : List Entry) (destFile : FPath)
    (w : List Entry) : SyncOut :=
  if (sub.filter (candFilterB ctx.rt)).isEmpty then
    ⟨[], w, some (.emptySubtitleDir (subPath.getLastD ""))⟩
  else
    match chosenSrc ctx sub with
    | none => ⟨manualEvs ctx destFile, w, some .panicCase⟩
    | some src =>
      ⟨manualEvs ctx destFile,
        (transferStep ctx subPath src w (targetNameOf destFile)).1,
        (transferStep ctx subPath src w (targetNameOf destFile)).2⟩

/-- One matched pairing in season mode: `read_dir` on the child fails unless
it is a directory; otherwise run `synchronize_folder` on its listing. -/
def pairingStep (ctx : Ctx) (e : Entry) (mediaFile : FPath) (w : List Entry) : SyncOut :=
  if e.isDirB then
    syncFolder ctx (ctx.inPath ++ [e.name]) (lookupListing ctx.subListings e.name) mediaFile w
  else ⟨[], w, some (.notADirectory e.name)⟩

/-- Result of the season loop: events, final write listing, remaining
destination index, and the propagated error when a pairing failed. -/
structure LoopOut where
  events : List Event
  w : List Entry
  idx : List (String × FPath)
  err : Option SyncError
deriving DecidableEq

/-- Season-mode loop (src/main.rs lines 152-170): for each input child in
name order, remove its name from the destination index; on a match run the
pairing, and propagate its error (the source applies `?` to
`synchronize_folder`), which stops the iteration. -/
def seasonLoop (ctx : Ctx) : List Entry → List (String × FPath) → List Entry → LoopOut
  | [], idx, w => ⟨[], w, idx, none⟩
  | e :: rest, idx, w =>
    match removeKey idx e.name with
    | (some mediaFile, idx') =>
      match pairingStep ctx e mediaFile w with
      | ⟨evs, w', some err⟩ => ⟨Event.pairingAttempt e.name :: evs, w', idx', some err⟩
      | ⟨evs, w', none⟩ =>
        match seasonLoop ctx rest idx' w' with
        | ⟨evs', w'', idx'', err⟩ =>
          ⟨Event.pairingAttempt e.name :: evs ++ evs', w'', idx'', err⟩
    | (none, _) => seasonLoop ctx rest idx w

/-- Outcome of a whole run: interaction events, the final filesystem, and
either the summary (count of matches and the unmatched stems) or the error
that terminated the run. -/
structure RunOut where
  events : List Event
  fs : FS
  result : Except RunError (Nat × List String)

/-- Packaging of the season branch's outcome (src/main.rs lines 152-170 and
188-204): a pairing error propagates and no summary is produced; otherwise
the summary counts the removed index entries and lists the remaining
stems. -/
def finishSeason (evs0 : List Event) (fs : FS) (numStems : Nat) (lo : LoopOut) : RunOut :=
  match lo.err with
  | some e => ⟨evs0 ++ lo.events, fs.setWrite lo.w, .error (.sync e)⟩
  | none =>
    ⟨evs0 ++ lo.events, fs.setWrite lo.w,
      .ok (numStems - lo.idx.length, lo.idx.map Prod.fst)⟩

/-- Packaging of the single branch's outcome (src/main.rs lines 171-204):
a pairing error propagates; on success the index is cleared, so the summary
reports every stem matched and nothing unmatched. -/
def finishSingle (evs0 : List Event) (fs : FS) (numStems : Nat) (so : SyncOut) : RunOut :=
  match so.err with
  | some e => ⟨evs0 ++ so.events, fs.setWrite so.w, .error (.sync e)⟩
  | none => ⟨evs0 ++ so.events, fs.setWrite so.w, .ok (numStems, [])⟩

/-- Model of `main` (src/main.rs lines 53-205): compute the mode, build the
destination index, fail with no prompts when it is empty, otherwise issue
the prompts, run the season loop or the single pairing, and report either
the propagated error or the summary. -/
def runMain (fs : FS) (copySub overwrite : Bool) (strat : Strategy) (sortAnswerName : Bool)
    (keywordText : String) (manualSel : Nat) : RunOut :=
  let mode := computeMode fs
  let idx0 := buildIndex fs
  if idx0.isEmpty then ⟨[], fs, .error .noFiles⟩
  else
    let numStems := idx0.length
    let evs0 := Event.promptStrategy ::
      (if strat = .manual then [Event.promptSort] else []) ++ [Event.promptKeyword]
    let ctx : Ctx :=
      ⟨strat, sortStratFor strat sortAnswerName, copySub, overwrite,
        mkRequiredText keywordText, manualSel, fs.inPath, fs.subListings⟩
    match mode with
    | .season =>
      finishSeason evs0 fs numStems
        (seasonLoop ctx (sortByName fs.inputListing) idx0 fs.writeListing)
    | .single =>
      match idx0.head? with
      | none => ⟨evs0, fs, .error .panicCase⟩
      | some (_, mediaFile) =>
        finishSingle evs0 fs numStems
          (syncFolder ctx fs.inPath fs.inputListing mediaFile fs.writeListing)

/-- The key set of a destination index. -/
def idxKeys (m : List (String × FPath)) : List String := m.map Prod.fst

/-- The target file names the run may write for a given index. -/
def targetsOf (m : List (String × FPath)) : List String :=
  m.map (fun p => p.1 ++ ".srt")

/-- Well-formedness of an index as `buildIndex` produces it: every value's
target name is its key with the subtitle extension appended, and keys are
nonempty. -/
def IdxOk (m : List (String × FPath)) : Prop :=
  ∀ p ∈ m, targetNameOf p.2 = p.1 ++ ".srt" ∧ ¬ p.1 = ""

/-- Directory listings agree as maps from names to entries; listing order is
a model artifact. -/
def Weq (w w' : List Entry) : Prop := ∀ n, lookupEntry w n = lookupEntry w' n

/-- Basic sanity of the initial filesystem, true of any real directory:
file names are nonempty. -/
def GoodFS (fs : FS) : Prop :=
  (∀ e ∈ fs.destListing, ¬ e.name = "") ∧ ¬ fs.outPath.getLastD "" = ""

theorem lookupEntry_cons (e : Entry) (l : List Entry) (n : String) :
    lookupEntry (e :: l) n = if e.name = n then some e else lookupEntry l n := by
  by_cases h : e.name = n <;> simp [lookupEntry, List.find?_cons, h]

theorem lookupEntry_append (w1 w2 : List Entry) (n : String) :
    lookupEntry (w1 ++ w2) n = (lookupEntry w1 n).or (lookupEntry w2 n) :=
  List.find?_append

theorem removeEntry_cons (e : Entry) (l : List Entry) (t : String) :
    removeEntry (e :: l) t = if e.name = t then removeEntry l t else e :: removeEntry l t := by
  by_cases h : e.name = t <;> simp [removeEntry, List.filter_cons, h]

theorem lookupEntry_removeEntry (w : List Entry) (t n : String) :
    lookupEntry (removeEntry w t) n = if n = t then none else lookupEntry w n := by
  induction w with
  | nil => simp [removeEntry, lookupEntry]
  | cons e w ih =>
    rw [removeEntry_cons]
    by_cases het : e.name = t
    · rw [if_pos het, ih, lookupEntry_cons]
      by_cases hnt : n = t
      · simp [hnt]
      · have : ¬ e.name = n := fun h => hnt (h ▸ het ▸ rfl)
        simp [hnt, this]
    · rw [if_neg het, lookupEntry_cons, lookupEntry_cons, ih]
      by_cases hen : e.name = n
      · have hnt : ¬ n = t := fun h => het (hen.trans h)
        simp [hen, hnt]
      · simp [hen]

theorem removeEntry_append (w1 w2 : List Entry) (t : String) :
    removeEntry (w1 ++ w2) t = removeEntry w1 t ++ removeEntry w2 t :=
  List.filter_append _ _

theorem removeEntry_removeEntry (w : List Entry) (t : String) :
    removeEntry (removeEntry w t) t = removeEntry w t := by
  induction w with
  | nil => rfl
  | cons e w ih =>
    rw [removeEntry_cons]
    by_cases h : e.name = t
    · rw [if_pos h, ih]
    · rw [if_neg h, removeEntry_cons, if_neg h, ih]

theorem removeEntry_single (E : Entry) (t : String) (h : E.name = t) :
    removeEntry [E] t = [] := by
  rw [removeEntry_cons, if_pos h]; rfl

theorem removeEntry_of_lookup_none (w : List Entry) (t : String)
    (h : lookupEntry w t = none) : removeEntry w t = w := by
  induction w with
  | nil => rfl
  | cons e w ih =>
    rw [lookupEntry_cons] at h
    by_cases he : e.name = t
    · rw [if_pos he] at h
      exact Option.noConfusion h
    · rw [if_neg he] at h
      rw [removeEntry_cons, if_neg he, ih h]

theorem lookupEntry_upsert (w : List Entry) (t : String) (E : Entry) (hE : E.name = t)
    (n : String) :
    lookupEntry (removeEntry w t ++ [E]) n = if n = t then some E else lookupEntry w n := by
  rw [lookupEntry_append, lookupEntry_removeEntry]
  by_cases h : n = t
  · simp [h, lookupEntry, List.find?_cons, hE]
  · have : ¬ E.name = n := fun hc => h (hc ▸ hE ▸ rfl)
    simp [h, lookupEntry, List.find?_cons, this]

theorem removeEntry_upsert (w : List Entry) (t : String) (E : Entry) (hE : E.name = t) :
    removeEntry (removeEntry w t ++ [E]) t = removeEntry w t := by
  rw [removeEntry_append, removeEntry_removeEntry, removeEntry_single E t hE, List.append_nil]

theorem weq_refl (w : List Entry) : Weq w w := fun _ => rfl

theorem weq_symm {w w' : List Entry} (h : Weq w w') : Weq w' w := fun n => (h n).symm

theorem weq_trans {a b c : List Entry} (h1 : Weq a b) (h2 : Weq b c) : Weq a c :=
  fun n => (h1 n).trans (h2 n)

theorem weq_removeEntry {w w' : List Entry} (t : String) (h : Weq w w') :
    Weq (removeEntry w t) (removeEntry w' t) := by
  intro n
  rw [lookupEntry_removeEntry, lookupEntry_removeEntry, h n]

theorem weq_appendSingle {w w' : List Entry} (E : Entry) (h : Weq w w') :
    Weq (w ++ [E]) (w' ++ [E]) := by
  intro n
  rw [lookupEntry_append, lookupEntry_append, h n]

theorem weq_upsert_of_lookup {w : List Entry} {t : String} {E : Entry} (hE : E.name = t)
    (h : lookupEntry w t = some E) : Weq (removeEntry w t ++ [E]) w := by
  intro n
  rw [lookupEntry_upsert w t E hE]
  by_cases hn : n = t
  · rw [if_pos hn, hn, h]
  · rw [if_neg hn]

theorem string_data_ne_nil {s : String} (h : ¬ s = "") : ¬ s.data = [] := by
  intro hd
  apply h
  cases s with
  | mk d => exact congrArg String.mk hd

theorem string_mk_ne_empty {b : List Char} (h : ¬ b = []) : ¬ String.mk b = "" := by
  intro hc
  exact h (congrArg String.data hc)

theorem fileStem_ne_empty (s : String) (h : ¬ s = "") : ¬ fileStem s = "" := by
  unfold fileStem
  cases hs : lastDotSplit s.data with
  | none => exact h
  | some p =>
    cases p with
    | mk b a =>
      show ¬ (if b = [] then s else String.mk b) = ""
      by_cases hb : b = []
      · rw [if_pos hb]; exact h
      · rw [if_neg hb]; exact string_mk_ne_empty hb

theorem lastDotSplit_of_no_dot (ys : List Char) (hy : ∀ c ∈ ys, ¬ c = '.') :
    lastDotSplit ys = none := by
  induction ys with
  | nil => rfl
  | cons c cs ih =>
    show (match lastDotSplit cs with
      | some (b, a) => some (c :: b, a)
      | none => if c = '.' then some ([], cs) else none) = none
    rw [ih (fun d hd => hy d (List.mem_cons_of_mem c hd))]
    rw [if_neg (hy c (List.mem_cons_self c cs))]

theorem lastDotSplit_append (xs ys : List Char) (hy : ∀ c ∈ ys, ¬ c = '.') :
    lastDotSplit (xs ++ '.' :: ys) = some (xs, ys) := by
  induction xs with
  | nil =>
    show (match lastDotSplit ys with
      | some (b, a) => some ('.' :: b, a)
      | none => if '.' = '.' then some ([], ys) else none) = some ([], ys)
    rw [lastDotSplit_of_no_dot ys hy]
    simp
  | cons c cs ih =>
    show (match lastDotSplit (cs ++ '.' :: ys) with
      | some (b, a) => some (c :: b, a)
      | none => if c = '.' then some ([], cs ++ '.' :: ys) else none) = some (c :: cs, ys)
    rw [ih]

theorem extOf_key_srt (k : String) (h : ¬ k = "") : extOf (k ++ ".srt") = some "srt" := by
  unfold extOf
  have hd : (k ++ ".srt").data = k.data ++ '.' :: ['s', 'r', 't'] := by
    rw [String.data_append]
  rw [hd]
  rw [lastDotSplit_append k.data ['s', 'r', 't'] (by decide)]
  show (if k.data = [] then none else some (String.mk ['s', 'r', 't'])) = some "srt"
  rw [if_neg (string_data_ne_nil h)]

theorem destFilterB_of_name_srt {e : Entry} {k : String} (hk : ¬ k = "")
    (hn : e.name = k ++ ".srt") : destFilterB e = false := by
  unfold destFilterB
  rw [hn, extOf_key_srt k hk]
  simp

/-- C4: the run operates in season mode exactly when the output path is a
directory or every direct child of the input path is itself a directory, and
in single mode in all other cases (src/main.rs lines 56-66). -/
theorem season_mode_iff (fs : FS) :
    (computeMode fs = .season ↔
      (fs.outIsDir = true ∨ ∀ e ∈ fs.inputListing, e.isDirB = true))
    ∧ (computeMode fs = .single ↔
      ¬ (fs.outIsDir = true ∨ ∀ e ∈ fs.inputListing, e.isDirB = true)) := by
  unfold computeMode
  by_cases h : (fs.outIsDir || fs.inputListing.all Entry.isDirB) = true
  · rw [if_pos h]
    simp only [Bool.or_eq_true, List.all_eq_true] at h
    constructor
    · simpa using h
    · constructor
      · intro hc; exact Mode.noConfusion hc
      · intro hc; exact absurd h hc
  · rw [if_neg h]
    simp only [Bool.or_eq_true, List.all_eq_true] at h
    constructor
    · constructor
      · intro hc; exact Mode.noConfusion hc
      · intro hc; exact absurd hc h
    · simpa using h

/-- C9: an empty input directory makes the universally quantified
all-children-are-directories check hold vacuously, so season mode is
selected regardless of the output path's shape. -/
theorem empty_input_selects_season (fs : FS) (h : fs.inputListing = []) :
    computeMode fs = .season := by
  unfold computeMode
  rw [h]
  simp

theorem empty_input_selects_season_witness :
    computeMode ⟨false, ["media", "movie.mkv"], [], [], ["in"], [], []⟩ = .season :=
  empty_input_selects_season _ rfl

/-- C10: when the output path is a single file, the destination index is
exactly that file keyed by its stem; no subtitle-extension exclusion is
applied in this branch (src/main.rs lines 94-105). -/
theorem single_file_output_index (fs : FS) (h : fs.outIsDir = false) :
    buildIndex fs = [(fileStem (fs.outPath.getLastD ""), fs.outPath)] := by
  unfold buildIndex
  rw [h]
  simp

theorem single_file_output_index_witness :
    buildIndex ⟨false, ["media", "movie.srt"], [], [], ["i"], [], []⟩ =
        [("movie", ["media", "movie.srt"])]
      ∧ extOf "movie.srt" = some "srt" :=
  ⟨(single_file_output_index ⟨false, ["media", "movie.srt"], [], [], ["i"], [], []⟩
      rfl).trans (by decide), by decide⟩

/-- C7: a run whose destination index is empty fails with the fatal
no-files error before any prompt is issued and before any pairing is
attempted: the event trace is empty and the filesystem is unchanged. -/
theorem empty_index_fatal (fs : FS) (cs ov : Bool) (strat : Strategy) (b : Bool)
    (kw : String) (m : Nat) (h : buildIndex fs = []) :
    runMain fs cs ov strat b kw m = ⟨[], fs, .error .noFiles⟩ := by
  unfold runMain
  rw [h]
  rfl

theorem empty_index_fatal_witness :
    runMain ⟨true, ["out"], [⟨"x.srt", .regular 0, 1⟩, ⟨"d", .dir, 0⟩], [], ["in"],
        [⟨"S01E01", .dir, 0⟩], []⟩ false false .alphabetical true "" 0 =
      ⟨[], ⟨true, ["out"], [⟨"x.srt", .regular 0, 1⟩, ⟨"d", .dir, 0⟩], [], ["in"],
        [⟨"S01E01", .dir, 0⟩], []⟩, .error .noFiles⟩ :=
  empty_index_fatal _ _ _ _ _ _ _ (by decide)

theorem candFilterB_none (e : Entry) :
    candFilterB none e = (extOf e.name == some "srt") := by
  simp [candFilterB]

theorem candFilterB_some (k : String) (e : Entry) :
    candFilterB (some k) e =
      ((extOf e.name == some "srt") && hasSubstr (lowerName e.name).data k.data) := by
  simp [candFilterB]

/-- C6: every candidate retained by the filter has the subtitle extension
and, when a nonempty keyword was given, its lowercased name contains the
lowercased keyword; a candidate is only ever dropped for lacking the
extension or the keyword; and with an empty keyword the filter reduces to
the extension test alone (src/main.rs lines 144-149 and 232-241). -/
theorem keyword_filter_spec (kw : String) (listing : List Entry) :
    (∀ e ∈ listing.filter (candFilterB (mkRequiredText kw)),
      extOf e.name = some "srt" ∧
        (¬ kw = "" → hasSubstr (lowerName e.name).data (lowerName kw).data = true))
    ∧ (∀ e ∈ listing, e ∉ listing.filter (candFilterB (mkRequiredText kw)) →
        ¬ extOf e.name = some "srt" ∨
          ∃ k, mkRequiredText kw = some k ∧
            hasSubstr (lowerName e.name).data k.data = false)
    ∧ (kw = "" →
        listing.filter (candFilterB (mkRequiredText kw)) =
          listing.filter (fun e => extOf e.name == some "srt")) := by
  refine ⟨?_, ?_, ?_⟩
  · intro e he
    rw [List.mem_filter] at he
    by_cases hkw : kw = ""
    · rw [hkw] at he
      have h0 : mkRequiredText "" = none := by simp [mkRequiredText]
      rw [h0, candFilterB_none] at he
      exact ⟨by simpa using he.2, fun hne => absurd hkw hne⟩
    · have h0 : mkRequiredText kw = some (lowerName kw) := by simp [mkRequiredText, hkw]
      rw [h0, candFilterB_some] at he
      have he2 : extOf e.name = some "srt" ∧
          hasSubstr (lowerName e.name).data (lowerName kw).data = true := by
        simpa using he.2
      exact ⟨he2.1, fun _ => he2.2⟩
  · intro e he hnotin
    have hc : candFilterB (mkRequiredText kw) e = false := by
      cases hcv : candFilterB (mkRequiredText kw) e
      · rfl
      · exact absurd (List.mem_filter.mpr ⟨he, hcv⟩) hnotin
    by_cases hkw : kw = ""
    · rw [hkw] at hc
      have h0 : mkRequiredText "" = none := by simp [mkRequiredText]
      rw [h0, candFilterB_none] at hc
      left
      intro hext
      rw [hext] at hc
      simp at hc
    · have h0 : mkRequiredText kw = some (lowerName kw) := by simp [mkRequiredText, hkw]
      rw [h0, candFilterB_some] at hc
      by_cases hext : extOf e.name = some "srt"
      · rw [hext] at hc
        simp only [beq_self_eq_true, Bool.true_and] at hc
        exact Or.inr ⟨lowerName kw, h0, hc⟩
      · exact Or.inl hext
  · intro hkw
    rw [hkw]
    have h0 : mkRequiredText "" = none := by simp [mkRequiredText]
    rw [h0]
    exact List.filter_congr (fun e _ => candFilterB_none e)

theorem keyword_filter_spec_witness :
    extOf "Movie.EN.srt" = some "srt" ∧
      hasSubstr (lowerName "Movie.EN.srt").data (lowerName "EN").data = true := by
  have h := (keyword_filter_spec "EN" [⟨"Movie.EN.srt", .regular 1, 2⟩]).1
    ⟨"Movie.EN.srt", .regular 1, 2⟩ (by decide)
  exact ⟨h.1, h.2 (by decide)⟩

theorem mem_keys_insertKV (m : List (String × FPath)) (k : String) (v : FPath) (s : String) :
    s ∈ idxKeys (insertKV m k v) ↔ s ∈ idxKeys m ∨ s = k := by
  unfold insertKV idxKeys
  by_cases h : m.any (fun p => p.1 = k)
  · rw [if_pos h, List.map_map]
    simp only [List.mem_map, Function.comp]
    constructor
    · rintro ⟨p, hp, hps⟩
      by_cases hpk : p.1 = k
      · rw [if_pos hpk] at hps
        exact Or.inr hps.symm
      · rw [if_neg hpk] at hps
        exact Or.inl ⟨p, hp, hps⟩
    · rintro (⟨p, hp, hps⟩ | hs)
      · refine ⟨p, hp, ?_⟩
        by_cases hpk : p.1 = k
        · rw [if_pos hpk]
          show k = s
          rw [← hpk]
          exact hps
        · rw [if_neg hpk]
          exact hps
      · rcases List.any_eq_true.mp h with ⟨p, hp, hpk⟩
        refine ⟨p, hp, ?_⟩
        rw [if_pos (of_decide_eq_true hpk)]
        exact hs.symm
  · rw [if_neg h]
    simp [eq_comm]

theorem mem_keys_foldl (outPath : FPath) (l : List Entry) (s : String) :
    ∀ m, s ∈ idxKeys (l.foldl
        (fun m e => insertKV m (fileStem e.name) (outPath ++ [e.name])) m)
      ↔ s ∈ idxKeys m ∨ ∃ e ∈ l, fileStem e.name = s := by
  induction l with
  | nil => intro m; simp
  | cons e l ih =>
    intro m
    rw [List.foldl_cons, ih, mem_keys_insertKV]
    simp only [List.mem_cons]
    constructor
    · rintro ((hm | hk) | ⟨f, hf, hfs⟩)
      · exact Or.inl hm
      · exact Or.inr ⟨e, Or.inl rfl, hk.symm⟩
      · exact Or.inr ⟨f, Or.inr hf, hfs⟩
    · rintro (hm | ⟨f, hf | hf, hfs⟩)
      · exact Or.inl (Or.inl hm)
      · exact Or.inl (Or.inr (by rw [hf] at hfs; exact hfs.symm))
      · exact Or.inr ⟨f, hf, hfs⟩

theorem finishSeason_result_ne (evs0 : List Event) (fs : FS) (n : Nat) (lo : LoopOut) :
    ¬ (finishSeason evs0 fs n lo).result = .error .noFiles := by
  unfold finishSeason
  cases lo.err <;> simp

theorem finishSingle_result_ne (evs0 : List Event) (fs : FS) (n : Nat) (so : SyncOut) :
    ¬ (finishSingle evs0 fs n so).result = .error .noFiles := by
  unfold finishSingle
  cases so.err <;> simp

theorem run_result_ne_noFiles (fs : FS) (cs ov : Bool) (strat : Strategy) (b : Bool)
    (kw : String) (m : Nat) (h : ¬ buildIndex fs = []) :
    ¬ (runMain fs cs ov strat b kw m).result = .error .noFiles := by
  unfold runMain
  rw [if_neg (by simpa [List.isEmpty_iff] using h)]
  cases computeMode fs
  · exact finishSeason_result_ne _ _ _ _
  · cases hh : (buildIndex fs).head? with
    | none => simp
    | some p =>
      cases p with
      | mk a mf => exact finishSingle_result_ne _ _ _ _

/-- C3: for a directory output, the destination index's key set is exactly
the set of stems of the non-directory, non-`srt` direct children
(src/main.rs lines 79-93), and whenever at least one such child exists the
index is nonempty and the run cannot fail with the empty-destination
error. -/
theorem dest_index_keys (fs : FS) (hdir : fs.outIsDir = true) :
    (∀ s : String,
      s ∈ idxKeys (buildIndex fs) ↔
        ∃ e ∈ fs.destListing, e.isDirB = false ∧ ¬ extOf e.name = some "srt" ∧
          fileStem e.name = s)
    ∧ (∀ e ∈ fs.destListing, e.isDirB = false → ¬ extOf e.name = some "srt" →
        ¬ buildIndex fs = [] ∧
          ∀ (cs ov : Bool) (strat : Strategy) (b : Bool) (kw : String) (m : Nat),
            ¬ (runMain fs cs ov strat b kw m).result = .error .noFiles) := by
  have hkey : ∀ s : String,
      s ∈ idxKeys (buildIndex fs) ↔
        ∃ e ∈ fs.destListing, e.isDirB = false ∧ ¬ extOf e.name = some "srt" ∧
          fileStem e.name = s := by
    intro s
    unfold buildIndex
    rw [if_pos hdir, mem_keys_foldl]
    constructor
    · rintro (hm | ⟨e, he, hes⟩)
      · exact absurd hm (by simp [idxKeys])
      · rw [List.mem_filter] at he
        have hd : e.isDirB = false ∧ ¬ extOf e.name = some "srt" := by
          have := he.2
          unfold destFilterB at this
          rcases Bool.and_eq_true_iff.mp this with ⟨h1, h2⟩
          constructor
          · cases hv : e.isDirB
            · rfl
            · rw [hv] at h1; exact Bool.noConfusion h1
          · intro hc
            rw [hc] at h2
            simp at h2
        exact ⟨e, he.1, hd.1, hd.2, hes⟩
    · rintro ⟨e, he, hnd, hns, hes⟩
      refine Or.inr ⟨e, ?_, hes⟩
      rw [List.mem_filter]
      refine ⟨he, ?_⟩
      unfold destFilterB
      rw [hnd]
      simp [hns]
  refine ⟨hkey, ?_⟩
  intro e he hnd hns
  have hne : ¬ buildIndex fs = [] := by
    intro hc
    have hm := (hkey (fileStem e.name)).mpr ⟨e, he, hnd, hns, rfl⟩
    rw [hc] at hm
    simp [idxKeys] at hm
  exact ⟨hne, fun cs ov strat b kw m => run_result_ne_noFiles fs cs ov strat b kw m hne⟩

theorem dest_index_keys_witness :
    ("S01E01" ∈ idxKeys (buildIndex ⟨true, ["out"],
        [⟨"S01E01.mkv", .regular 1, 9⟩, ⟨"old.srt", .regular 2, 3⟩, ⟨"extras", .dir, 0⟩],
        [], ["in"], [], []⟩))
    ∧ ¬ buildIndex ⟨true, ["out"],
        [⟨"S01E01.mkv", .regular 1, 9⟩, ⟨"old.srt", .regular 2, 3⟩, ⟨"extras", .dir, 0⟩],
        [], ["in"], [], []⟩ = []
    ∧ ¬ (runMain ⟨true, ["out"],
        [⟨"S01E01.mkv", .regular 1, 9⟩, ⟨"old.srt", .regular 2, 3⟩, ⟨"extras", .dir, 0⟩],
        [], ["in"], [], []⟩ false false .alphabetical true "" 0).result =
      .error .noFiles := by
  have h := dest_index_keys ⟨true, ["out"],
    [⟨"S01E01.mkv", .regular 1, 9⟩, ⟨"old.srt", .regular 2, 3⟩, ⟨"extras", .dir, 0⟩],
    [], ["in"], [], []⟩ rfl
  have h1 := (h.1 "S01E01").mpr ⟨⟨"S01E01.mkv", .regular 1, 9⟩, by decide, by decide,
    by decide, by decide⟩
  have h2 := h.2 ⟨"S01E01.mkv", .regular 1, 9⟩ (by decide) (by decide) (by decide)
  exact ⟨h1, h2.1, h2.2 false false .alphabetical true "" 0⟩

instance : IsTotal Entry sizeLE := ⟨fun a b => Nat.le_total a.size b.size⟩

instance : IsTrans Entry sizeLE := ⟨fun _ _ _ h1 h2 => Nat.le_trans h1 h2⟩

theorem mem_of_getLast?_entry {l : List Entry} {b : Entry} (h : l.getLast? = some b) :
    b ∈ l := by
  have hb : b ∈ l.getLast? := by rw [h]; rfl
  rcases List.mem_getLast?_eq_getLast hb with ⟨hne, hbe⟩
  rw [hbe]
  exact List.getLast_mem hne

theorem sorted_last_max :
    ∀ (l : List Entry), l.Sorted sizeLE → ∀ b, l.getLast? = some b →
      ∀ a ∈ l, a.size ≤ b.size := by
  intro l
  induction l with
  | nil => intro _ b hb; exact absurd hb (by simp)
  | cons x l ih =>
    intro hs b hb a ha
    cases l with
    | nil =>
      have hbx : x = b := by simpa using hb
      have hax : a = x := by simpa using ha
      rw [hax, hbx]
    | cons y t =>
      rw [List.getLast?_cons_cons] at hb
      rw [List.sorted_cons] at hs
      rcases List.mem_cons.mp ha with hax | hal
      · have hbm : b ∈ y :: t := mem_of_getLast?_entry hb
        rw [hax]
        exact hs.1 b hbm
      · exact ih hs.2 b hb a hal

/-- C5: under the size selection strategy the effective sort order is size
ascending and the selected candidate is the last element of the sorted
retained set, so its size is greater than or equal to every retained
candidate's size (src/main.rs lines 257-274). -/
theorem size_strategy_picks_max (files : List Entry) (b : Bool) (m : Nat)
    (h : ¬ files = []) :
    ∃ sel, pickCandidate .size m (sortCandidates (sortStratFor .size b) files) = some sel
      ∧ (∀ e ∈ files, e.size ≤ sel.size)
      ∧ (sortCandidates (sortStratFor .size b) files).getLast? = some sel := by
  have hss : sortStratFor .size b = .bySize := rfl
  rw [hss]
  have hne : ¬ sortCandidates .bySize files = [] := by
    intro hc
    apply h
    have := congrArg List.length hc
    rw [show sortCandidates .bySize files = files.insertionSort sizeLE from rfl,
      List.length_insertionSort] at this
    exact List.length_eq_zero.mp this
  rcases hl : (sortCandidates .bySize files).getLast? with _ | sel
  · exact absurd (List.getLast?_eq_none_iff.mp hl) hne
  · refine ⟨sel, ?_, ?_, rfl⟩
    · exact hl
    · intro e he
      have hmem : e ∈ sortCandidates .bySize files := by
        show e ∈ files.insertionSort sizeLE
        rw [List.mem_insertionSort]
        exact he
      have hsorted : (sortCandidates .bySize files).Sorted sizeLE :=
        List.sorted_insertionSort sizeLE files
      exact sorted_last_max _ hsorted sel hl e hmem

theorem sortCandidates_length (ss : SortStrat) (l : List Entry) :
    (sortCandidates ss l).length = l.length := by
  cases ss
  · exact List.length_insertionSort nameLE l
  · exact List.length_insertionSort sizeLE l

theorem sortCandidates_ne_nil (ss : SortStrat) (l : List Entry) (h : ¬ l = []) :
    ¬ sortCandidates ss l = [] := by
  intro hc
  apply h
  have hlen := congrArg List.length hc
  rw [sortCandidates_length] at hlen
  exact List.length_eq_zero.mp hlen

theorem mem_sortCandidates (ss : SortStrat) (l : List Entry) (x : Entry)
    (h : x ∈ sortCandidates ss l) : x ∈ l := by
  cases ss
  · exact (List.mem_insertionSort nameLE).mp h
  · exact (List.mem_insertionSort sizeLE).mp h

theorem pickCandidate_isSome (strat : Strategy) (m : Nat) (l : List Entry)
    (h : ¬ l = []) : ∃ c, pickCandidate strat m l = some c ∧ c ∈ l := by
  cases strat
  · cases l with
    | nil => exact absurd rfl h
    | cons a t => exact ⟨a, rfl, List.mem_cons_self a t⟩
  · rcases hl : l.getLast? with _ | c
    · exact absurd (List.getLast?_eq_none_iff.mp hl) h
    · exact ⟨c, hl, mem_of_getLast?_entry hl⟩
  · have hlen : 0 < l.length := List.length_pos.mpr h
    have hm : m % l.length < l.length := Nat.mod_lt m hlen
    rcases hg : l.get? (m % l.length) with _ | c
    · rw [List.get?_eq_none] at hg
      exact absurd hg (Nat.not_le.mpr hm)
    · exact ⟨c, hg, List.get?_mem hg⟩

theorem size_strategy_picks_max_witness :
    ∃ sel, pickCandidate .size 0 (sortCandidates (sortStratFor .size true)
        [⟨"a.srt", .regular 1, 5⟩, ⟨"b.srt", .regular 2, 9⟩, ⟨"c.srt", .regular 3, 2⟩]) =
          some sel
      ∧ (∀ e ∈ [⟨"a.srt", .regular 1, 5⟩, ⟨"b.srt", .regular 2, 9⟩,
          ⟨"c.srt", .regular 3, 2⟩], Entry.size e ≤ sel.size)
      ∧ (sortCandidates (sortStratFor .size true)
          [⟨"a.srt", .regular 1, 5⟩, ⟨"b.srt", .regular 2, 9⟩,
            ⟨"c.srt", .regular 3, 2⟩]).getLast? = some sel :=
  size_strategy_picks_max _ true 0 (by decide)

/-- C1 counterexample: in season mode with two matching subdirectories, a
no-candidates failure on the first pairing terminates the run with an error
(no summary), and the second subdirectory's target is never created. -/
theorem season_failure_aborts_cx :
    (runMain ⟨true, ["out"],
        [⟨"S01E01.mkv", .regular 1, 100⟩, ⟨"S01E02.mkv", .regular 2, 100⟩], [], ["in"],
        [⟨"S01E01", .dir, 0⟩, ⟨"S01E02", .dir, 0⟩],
        [("S01E01", []), ("S01E02", [⟨"b.srt", .regular 12, 20⟩])]⟩
      false false .alphabetical true "" 0).result =
        .error (.sync (.emptySubtitleDir "S01E01"))
    ∧ lookupEntry (runMain ⟨true, ["out"],
        [⟨"S01E01.mkv", .regular 1, 100⟩, ⟨"S01E02.mkv", .regular 2, 100⟩], [], ["in"],
        [⟨"S01E01", .dir, 0⟩, ⟨"S01E02", .dir, 0⟩],
        [("S01E01", []), ("S01E02", [⟨"b.srt", .regular 12, 20⟩])]⟩
      false false .alphabetical true "" 0).fs.destListing "S01E02.srt" = none :=
  ⟨rfl, rfl⟩

/-- C1 amended: a failed synchronize-pairing for a matched subdirectory in
season mode aborts the run at that subdirectory; the error propagates (so
the summary is never produced) and the remaining subdirectories are not
processed — the loop's outcome does not depend on them at all. -/
theorem pairing_failure_aborts (ctx : Ctx) (e : Entry) (rest : List Entry)
    (idx : List (String × FPath)) (w : List Entry) (mediaFile : FPath) (er : SyncError)
    (hm : (removeKey idx e.name).1 = some mediaFile)
    (herr : (pairingStep ctx e mediaFile w).err = some er) :
    seasonLoop ctx (e :: rest) idx w =
      ⟨Event.pairingAttempt e.name :: (pairingStep ctx e mediaFile w).events,
        (pairingStep ctx e mediaFile w).w, (removeKey idx e.name).2, some er⟩
    ∧ ∀ rest', seasonLoop ctx (e :: rest') idx w = seasonLoop ctx (e :: rest) idx w := by
  have hstep : ∀ r : List Entry, seasonLoop ctx (e :: r) idx w =
      ⟨Event.pairingAttempt e.name :: (pairingStep ctx e mediaFile w).events,
        (pairingStep ctx e mediaFile w).w, (removeKey idx e.name).2, some er⟩ := by
    intro r
    rcases hk : removeKey idx e.name with ⟨o, idx'⟩
    have ho : o = some mediaFile := by rw [hk] at hm; exact hm
    subst ho
    rcases hp : pairingStep ctx e mediaFile w with ⟨evs, w', err⟩
    have he : err = some er := by rw [hp] at herr; exact herr
    subst he
    simp only [seasonLoop, hk, hp]
  exact ⟨hstep rest, fun rest' => (hstep rest').trans (hstep rest).symm⟩

theorem pairing_failure_aborts_witness :
    seasonLoop ⟨.alphabetical, .byName, false, false, none, 0, ["in"], [("A", [])]⟩
        [⟨"A", .dir, 0⟩, ⟨"B", .dir, 0⟩] [("A", ["out", "A.mkv"])] [] =
      ⟨[Event.pairingAttempt "A"], [], [], some (.emptySubtitleDir "A")⟩ := by
  have h := pairing_failure_aborts
    ⟨.alphabetical, .byName, false, false, none, 0, ["in"], [("A", [])]⟩
    ⟨"A", .dir, 0⟩ [⟨"B", .dir, 0⟩] [("A", ["out", "A.mkv"])] [] ["out", "A.mkv"]
    (.emptySubtitleDir "A") (by decide) (by decide)
  exact h.1.trans (by decide)

/-- C2 counterexample: with the copy flag set, the overwrite flag off, and
the target `S01E01.srt` already present (bytes 7, size 5), the pairing
succeeds — `fs::copy` silently replaces the pre-existing target with the
source's bytes (11, size 10) instead of failing. -/
theorem target_exists_copy_cx :
    (runMain ⟨true, ["out"],
        [⟨"S01E01.mkv", .regular 1, 100⟩, ⟨"S01E01.srt", .regular 7, 5⟩], [], ["in"],
        [⟨"S01E01", .dir, 0⟩], [("S01E01", [⟨"a.srt", .regular 11, 10⟩])]⟩
      true false .alphabetical true "" 0).result = .ok (1, [])
    ∧ lookupEntry (runMain ⟨true, ["out"],
        [⟨"S01E01.mkv", .regular 1, 100⟩, ⟨"S01E01.srt", .regular 7, 5⟩], [], ["in"],
        [⟨"S01E01", .dir, 0⟩], [("S01E01", [⟨"a.srt", .regular 11, 10⟩])]⟩
      true false .alphabetical true "" 0).fs.destListing "S01E01.srt" =
      some ⟨"S01E01.srt", .regular 11, 10⟩ :=
  ⟨rfl, rfl⟩

/-- C2 amended: when the computed target already exists and overwrite is
disabled, the behaviour depends on the copy flag: without it the symlink
step fails with a file-exists error and the listing is unchanged; with it
the copy silently replaces the pre-existing target's bytes with the
selected source's bytes and the pairing succeeds. -/
theorem no_overwrite_existing_target (ctx : Ctx) (subPath : FPath) (sub : List Entry)
    (destFile : FPath) (w : List Entry) (tE : Entry)
    (hov : ctx.overwrite = false)
    (hex : lookupEntry w (targetNameOf destFile) = some tE)
    (hfiles : ¬ sub.filter (candFilterB ctx.rt) = []) :
    (ctx.copySub = false →
      syncFolder ctx subPath sub destFile w =
        ⟨manualEvs ctx destFile, w, some (.fileExists (targetNameOf destFile))⟩)
    ∧ (ctx.copySub = true → tE.isDirB = false → (∀ e ∈ sub, e.isDirB = false) →
      ∃ src, chosenSrc ctx sub = some src ∧
        syncFolder ctx subPath sub destFile w =
          ⟨manualEvs ctx destFile,
            removeEntry w (targetNameOf destFile) ++
              [mkWritten true subPath src (targetNameOf destFile)], none⟩) := by
  obtain ⟨src, hsrc, hmem⟩ := pickCandidate_isSome ctx.strat ctx.manualSel
    (sortCandidates ctx.sortStrat (sub.filter (candFilterB ctx.rt)))
    (sortCandidates_ne_nil ctx.sortStrat _ hfiles)
  have hsrc' : chosenSrc ctx sub = some src := hsrc
  have hover : overwriteStep ctx.overwrite w (targetNameOf destFile) = (w, none) := by
    unfold overwriteStep
    rw [hex, hov]
    simp
  have hempty : (sub.filter (candFilterB ctx.rt)).isEmpty = false := by
    simpa [List.isEmpty_iff] using hfiles
  constructor
  · intro hcs
    simp only [syncFolder, hempty, hsrc', hover, writeStep, hcs, hex]
    have hts : transferStep ctx subPath src w (targetNameOf destFile) =
        (w, some (.fileExists (targetNameOf destFile))) := by
      simp [transferStep, hover, writeStep, hcs, hex]
    rw [hts]
    simp
  · intro hcs htE hnodir
    refine ⟨src, hsrc', ?_⟩
    have hsd : src.isDirB = false :=
      hnodir src (List.mem_filter.mp (mem_sortCandidates ctx.sortStrat _ src hmem)).1
    simp only [syncFolder, hempty, hsrc', hover, writeStep, hcs, hex, hsd, htE]
    have hts : transferStep ctx subPath src w (targetNameOf destFile) =
        (removeEntry w (targetNameOf destFile) ++
          [mkWritten true subPath src (targetNameOf destFile)], none) := by
      simp [transferStep, hover, writeStep, hcs, hex, hsd, htE]
    rw [hts]
    simp

theorem mkWritten_name (c : Bool) (p : FPath) (s : Entry) (t : String) :
    (mkWritten c p s t).name = t := by
  unfold mkWritten
  split <;> rfl

theorem mkWritten_existsB (c : Bool) (p : FPath) (s : Entry) (t : String) :
    (mkWritten c p s t).existsB = true := by
  unfold mkWritten
  split <;> rfl

theorem mkWritten_isDirB (c : Bool) (p : FPath) (s : Entry) (t : String) :
    (mkWritten c p s t).isDirB = false := by
  unfold mkWritten
  split <;> rfl

theorem existsB_false_isDirB {e : Entry} (h : e.existsB = false) : e.isDirB = false := by
  cases e with
  | mk n k s =>
    cases k with
    | dir => exact absurd h (by simp [Entry.existsB])
    | regular d => exact absurd h (by simp [Entry.existsB])
    | symlinkTo p l => rfl

/-- Abstract effect of one transfer on the entry at the target name. -/
inductive TDelta
  | keep
  | removed
  | written
deriving DecidableEq

/-- Applies an abstract transfer effect at the target name. -/
def applyDelta (w : List Entry) (t : String) (E : Entry) : TDelta → List Entry
  | .keep => w
  | .removed => removeEntry w t
  | .written => removeEntry w t ++ [E]

/-- Decision structure of `transferStep`, as a function of the entry
currently occupying the target name alone. -/
def transferDelta (ctx : Ctx) (src : Entry) (t : String) :
    Option Entry → TDelta × Option SyncError
  | some e =>
    if e.existsB && ctx.overwrite then
      if e.isDirB then (.keep, some (.isADirectory t))
      else
        if ctx.copySub then
          if src.isDirB then (.removed, some (.isADirectory src.name))
          else (.written, none)
        else (.written, none)
    else
      if ctx.copySub then
        if src.isDirB then (.keep, some (.isADirectory src.name))
        else if e.isDirB then (.keep, some (.isADirectory t))
        else (.written, none)
      else (.keep, some (.fileExists t))
  | none =>
    if ctx.copySub then
      if src.isDirB then (.keep, some (.isADirectory src.name))
      else (.written, none)
    else (.written, none)

theorem transferStep_eq_delta (ctx : Ctx) (subPath : FPath) (src : Entry) (w : List Entry)
    (t : String) :
    transferStep ctx subPath src w t =
      (applyDelta w t (mkWritten ctx.copySub subPath src t)
          (transferDelta ctx src t (lookupEntry w t)).1,
        (transferDelta ctx src t (lookupEntry w t)).2) := by
  cases hL : lookupEntry w t with
  | none =>
    have hov : overwriteStep ctx.overwrite w t = (w, none) := by
      unfold overwriteStep
      rw [hL]
    have hts : transferStep ctx subPath src w t = writeStep ctx.copySub subPath src w t := by
      unfold transferStep
      rw [hov]
    rw [hts]
    cases hc : ctx.copySub with
    | false =>
      simp [writeStep, transferDelta, applyDelta, hc, hL, removeEntry_of_lookup_none w t hL]
    | true =>
      cases hsd : src.isDirB with
      | false =>
        simp [writeStep, transferDelta, applyDelta, hc, hsd, hL,
          removeEntry_of_lookup_none w t hL]
      | true => simp [writeStep, transferDelta, applyDelta, hc, hsd]
  | some e =>
    by_cases hcond : (e.existsB && ctx.overwrite) = true
    · by_cases hd : e.isDirB = true
      · have hov : overwriteStep ctx.overwrite w t = (w, some (.isADirectory t)) := by
          simp [overwriteStep, hL, hcond, hd]
        have hts : transferStep ctx subPath src w t = (w, some (.isADirectory t)) := by
          unfold transferStep
          rw [hov]
        rw [hts]
        simp [transferDelta, hcond, hd, applyDelta]
      · have hov : overwriteStep ctx.overwrite w t = (removeEntry w t, none) := by
          simp [overwriteStep, hL, hcond, hd]
        have hL2 : lookupEntry (removeEntry w t) t = none := by
          rw [lookupEntry_removeEntry]
          simp
        have hts : transferStep ctx subPath src w t =
            writeStep ctx.copySub subPath src (removeEntry w t) t := by
          unfold transferStep
          rw [hov]
        rw [hts]
        cases hc : ctx.copySub with
        | false => simp [writeStep, transferDelta, applyDelta, hc, hcond, hd, hL2]
        | true =>
          cases hsd : src.isDirB with
          | false => simp [writeStep, transferDelta, applyDelta, hc, hcond, hd, hsd, hL2]
          | true => simp [writeStep, transferDelta, applyDelta, hc, hcond, hd, hsd, hL2]
    · have hov : overwriteStep ctx.overwrite w t = (w, none) := by
        simp [overwriteStep, hL, hcond]
      have hts : transferStep ctx subPath src w t = writeStep ctx.copySub subPath src w t := by
        unfold transferStep
        rw [hov]
      rw [hts]
      cases hc : ctx.copySub with
      | false => simp [writeStep, transferDelta, applyDelta, hc, hcond, hL]
      | true =>
        cases hsd : src.isDirB with
        | true => simp [writeStep, transferDelta, applyDelta, hc, hcond, hsd, hL]
        | false =>
          cases hd : e.isDirB with
          | true => simp [writeStep, transferDelta, applyDelta, hc, hcond, hsd, hd, hL]
          | false => simp [writeStep, transferDelta, applyDelta, hc, hcond, hsd, hd, hL]

theorem transferStep_frame (ctx : Ctx) (subPath : FPath) (src : Entry) (w : List Entry)
    (t n : String) (hn : ¬ n = t) :
    lookupEntry (transferStep ctx subPath src w t).1 n = lookupEntry w n := by
  rw [transferStep_eq_delta]
  cases (transferDelta ctx src t (lookupEntry w t)).1 with
  | keep => rfl
  | removed =>
    show lookupEntry (removeEntry w t) n = lookupEntry w n
    rw [lookupEntry_removeEntry, if_neg hn]
  | written =>
    show lookupEntry (removeEntry w t ++ [mkWritten ctx.copySub subPath src t]) n =
      lookupEntry w n
    rw [lookupEntry_upsert _ _ _ (mkWritten_name _ _ _ _), if_neg hn]

theorem transferStep_weq (ctx : Ctx) (subPath : FPath) (src : Entry) (t : String)
    {w w' : List Entry} (hW : Weq w w') :
    (transferStep ctx subPath src w t).2 = (transferStep ctx subPath src w' t).2
    ∧ Weq (transferStep ctx subPath src w t).1 (transferStep ctx subPath src w' t).1 := by
  rw [transferStep_eq_delta, transferStep_eq_delta, hW t]
  refine ⟨rfl, ?_⟩
  cases (transferDelta ctx src t (lookupEntry w' t)).1 with
  | keep => exact hW
  | removed => exact weq_removeEntry t hW
  | written => exact weq_appendSingle _ (weq_removeEntry t hW)

theorem filter_removeEntry (w : List Entry) (t : String)
    (hk : ∀ e : Entry, e.name = t → destFilterB e = false) :
    (removeEntry w t).filter destFilterB = w.filter destFilterB := by
  induction w with
  | nil => rfl
  | cons e w ih =>
    rw [removeEntry_cons]
    by_cases he : e.name = t
    · rw [if_pos he, ih, List.filter_cons, hk e he]
      simp
    · rw [if_neg he, List.filter_cons, List.filter_cons, ih]

theorem transferStep_filter (ctx : Ctx) (subPath : FPath) (src : Entry) (w : List Entry)
    (t : String) (hk : ∀ e : Entry, e.name = t → destFilterB e = false) :
    ((transferStep ctx subPath src w t).1).filter destFilterB = w.filter destFilterB := by
  rw [transferStep_eq_delta]
  cases (transferDelta ctx src t (lookupEntry w t)).1 with
  | keep => rfl
  | removed => exact filter_removeEntry w t hk
  | written =>
    show ((removeEntry w t ++ [mkWritten ctx.copySub subPath src t]).filter destFilterB) =
      w.filter destFilterB
    rw [List.filter_append, filter_removeEntry w t hk]
    have hE : destFilterB (mkWritten ctx.copySub subPath src t) = false :=
      hk _ (mkWritten_name _ _ _ _)
    simp [hE]

theorem transferDelta_removed {ctx : Ctx} {src : Entry} {t : String} {o : Option Entry}
    {er : Option SyncError} (h : transferDelta ctx src t o = (.removed, er)) :
    ctx.copySub = true ∧ src.isDirB = true ∧ er = some (.isADirectory src.name) := by
  cases o with
  | none =>
    unfold transferDelta at h
    split_ifs at h <;> simp_all
  | some e =>
    unfold transferDelta at h
    split_ifs at h <;> simp_all
    all_goals (split_ifs at h <;> simp_all)

theorem transferDelta_written {ctx : Ctx} {src : Entry} {t : String} {o : Option Entry}
    {er : Option SyncError} (h : transferDelta ctx src t o = (.written, er)) :
    er = none ∧ (ctx.copySub = true → src.isDirB = false) := by
  cases o with
  | none =>
    unfold transferDelta at h
    split_ifs at h <;> simp_all
  | some e =>
    unfold transferDelta at h
    split_ifs at h <;> simp_all
    all_goals (split_ifs at h <;> simp_all)

theorem transferDelta_some_written (ctx : Ctx) (src : Entry) (t : String) (E : Entry)
    (hov : ctx.overwrite = true) (hEx : E.existsB = true) (hEd : E.isDirB = false)
    (hsrc : ctx.copySub = true → src.isDirB = false) :
    transferDelta ctx src t (some E) = (.written, none) := by
  simp only [transferDelta, hEx, hov, Bool.and_self, if_true, hEd]
  cases hc : ctx.copySub with
  | false => simp
  | true => simp [hsrc hc]

theorem transferStep_self (ctx : Ctx) (subPath : FPath) (src : Entry) (w : List Entry)
    (t : String) (hov : ctx.overwrite = true) :
    transferStep ctx subPath src (transferStep ctx subPath src w t).1 t =
      transferStep ctx subPath src w t := by
  rcases hd : transferDelta ctx src t (lookupEntry w t) with ⟨d, er⟩
  have h1 := transferStep_eq_delta ctx subPath src w t
  rw [hd] at h1
  cases d with
  | keep =>
    have hw1 : (transferStep ctx subPath src w t).1 = w := by
      rw [h1]
      rfl
    rw [hw1]
  | removed =>
    obtain ⟨hc, hsd, her⟩ := transferDelta_removed hd
    have hw1 : (transferStep ctx subPath src w t).1 = removeEntry w t := by
      rw [h1]
      rfl
    have hL2 : lookupEntry (removeEntry w t) t = none := by
      rw [lookupEntry_removeEntry]
      simp
    have hdelta2 : transferDelta ctx src t none = (.keep, some (.isADirectory src.name)) := by
      simp [transferDelta, hc, hsd]
    have h2 := transferStep_eq_delta ctx subPath src (removeEntry w t) t
    rw [hL2, hdelta2] at h2
    rw [hw1, h2, h1, her]
    rfl
  | written =>
    obtain ⟨her, hsrc⟩ := transferDelta_written hd
    have hw1 : (transferStep ctx subPath src w t).1 =
        removeEntry w t ++ [mkWritten ctx.copySub subPath src t] := by
      rw [h1]
      rfl
    have hL2 : lookupEntry (removeEntry w t ++ [mkWritten ctx.copySub subPath src t]) t =
        some (mkWritten ctx.copySub subPath src t) := by
      rw [lookupEntry_upsert _ _ _ (mkWritten_name _ _ _ _)]
      simp
    have hdelta2 : transferDelta ctx src t (some (mkWritten ctx.copySub subPath src t)) =
        (.written, none) :=
      transferDelta_some_written ctx src t _ hov (mkWritten_existsB _ _ _ _)
        (mkWritten_isDirB _ _ _ _) hsrc
    have h2 := transferStep_eq_delta ctx subPath src
      (removeEntry w t ++ [mkWritten ctx.copySub subPath src t]) t
    rw [hL2, hdelta2] at h2
    rw [hw1, h2, h1, her]
    show (removeEntry (removeEntry w t ++ [mkWritten ctx.copySub subPath src t]) t ++
        [mkWritten ctx.copySub subPath src t], (none : Option SyncError)) = _
    rw [removeEntry_upsert w t _ (mkWritten_name _ _ _ _)]
    rfl

theorem no_overwrite_existing_target_witness :
    (syncFolder ⟨.alphabetical, .byName, false, false, none, 0, ["in"], []⟩
        ["in", "A"] [⟨"a.srt", .regular 11, 10⟩] ["out", "A.mkv"]
        [⟨"A.srt", .regular 7, 5⟩] =
      ⟨[], [⟨"A.srt", .regular 7, 5⟩], some (.fileExists "A.srt")⟩)
    ∧ (syncFolder ⟨.alphabetical, .byName, true, false, none, 0, ["in"], []⟩
        ["in", "A"] [⟨"a.srt", .regular 11, 10⟩] ["out", "A.mkv"]
        [⟨"A.srt", .regular 7, 5⟩] =
      ⟨[], [⟨"A.srt", .regular 11, 10⟩], none⟩) := by
  constructor
  · have h := (no_overwrite_existing_target
      ⟨.alphabetical, .byName, false, false, none, 0, ["in"], []⟩
      ["in", "A"] [⟨"a.srt", .regular 11, 10⟩] ["out", "A.mkv"]
      [⟨"A.srt", .regular 7, 5⟩] ⟨"A.srt", .regular 7, 5⟩ rfl (by decide) (by decide)).1 rfl
    exact h.trans (by decide)
  · have h := (no_overwrite_existing_target
      ⟨.alphabetical, .byName, true, false, none, 0, ["in"], []⟩
      ["in", "A"] [⟨"a.srt", .regular 11, 10⟩] ["out", "A.mkv"]
      [⟨"A.srt", .regular 7, 5⟩] ⟨"A.srt", .regular 7, 5⟩ rfl (by decide) (by decide)).2
      rfl (by decide) (by decide)
    rcases h with ⟨src, hsrc, heq⟩
    rw [heq]
    have hs : src = ⟨"a.srt", .regular 11, 10⟩ := by
      have : some src = some (⟨"a.srt", .regular 11, 10⟩ : Entry) := by
        rw [← hsrc]; decide
      exact Option.some.inj this.symm |>.symm
    rw [hs]
    decide

theorem pickCandidate_nil (strat : Strategy) (m : Nat) : pickCandidate strat m [] = none := by
  cases strat <;> rfl

theorem sortCandidates_nil (ss : SortStrat) : sortCandidates ss [] = [] := by
  cases ss <;> rfl

theorem chosenSrc_some_filter (ctx : Ctx) (sub : List Entry) {src : Entry}
    (h : chosenSrc ctx sub = some src) :
    (sub.filter (candFilterB ctx.rt)).isEmpty = false := by
  cases hf : (sub.filter (candFilterB ctx.rt)).isEmpty with
  | false => rfl
  | true =>
    exfalso
    have hnil : sub.filter (candFilterB ctx.rt) = [] := List.isEmpty_iff.mp hf
    unfold chosenSrc at h
    rw [hnil, sortCandidates_nil, pickCandidate_nil] at h
    exact Option.noConfusion h

theorem syncFolder_eq_empty (ctx : Ctx) (subPath : FPath) (sub : List Entry)
    (destFile : FPath) (w : List Entry)
    (hf : (sub.filter (candFilterB ctx.rt)).isEmpty = true) :
    syncFolder ctx subPath sub destFile w =
      ⟨[], w, some (.emptySubtitleDir (subPath.getLastD ""))⟩ := by
  unfold syncFolder
  rw [hf]
  rfl

theorem syncFolder_eq_none (ctx : Ctx) (subPath : FPath) (sub : List Entry)
    (destFile : FPath) (w : List Entry)
    (hf : (sub.filter (candFilterB ctx.rt)).isEmpty = false)
    (hC : chosenSrc ctx sub = none) :
    syncFolder ctx subPath sub destFile w = ⟨manualEvs ctx destFile, w, some .panicCase⟩ := by
  unfold syncFolder
  rw [hf, hC]
  rfl

theorem syncFolder_eq_some (ctx : Ctx) (subPath : FPath) (sub : List Entry)
    (destFile : FPath) {src : Entry} (w : List Entry)
    (hf : (sub.filter (candFilterB ctx.rt)).isEmpty = false)
    (hC : chosenSrc ctx sub = some src) :
    syncFolder ctx subPath sub destFile w =
      ⟨manualEvs ctx destFile,
        (transferStep ctx subPath src w (targetNameOf destFile)).1,
        (transferStep ctx subPath src w (targetNameOf destFile)).2⟩ := by
  unfold syncFolder
  rw [hf, hC]
  rfl

theorem syncFolder_self (ctx : Ctx) (subPath : FPath) (sub : List Entry) (destFile : FPath)
    (w : List Entry) (hov : ctx.overwrite = true) :
    syncFolder ctx subPath sub destFile ((syncFolder ctx subPath sub destFile w).w) =
      syncFolder ctx subPath sub destFile w := by
  cases hf : (sub.filter (candFilterB ctx.rt)).isEmpty with
  | true =>
    have h1 := syncFolder_eq_empty ctx subPath sub destFile w hf
    rw [h1]
    exact h1
  | false =>
    cases hC : chosenSrc ctx sub with
    | none =>
      have h1 := syncFolder_eq_none ctx subPath sub destFile w hf hC
      rw [h1]
      exact h1
    | some src =>
      have h1 := syncFolder_eq_some ctx subPath sub destFile w hf hC
      rw [h1]
      have h2 := syncFolder_eq_some ctx subPath sub destFile
        ((transferStep ctx subPath src w (targetNameOf destFile)).1) hf hC
      rw [transferStep_self ctx subPath src w _ hov] at h2
      exact h2

theorem syncFolder_weq (ctx : Ctx) (subPath : FPath) (sub : List Entry) (destFile : FPath)
    {w w' : List Entry} (hW : Weq w w') :
    (syncFolder ctx subPath sub destFile w).events =
        (syncFolder ctx subPath sub destFile w').events
    ∧ (syncFolder ctx subPath sub destFile w).err =
        (syncFolder ctx subPath sub destFile w').err
    ∧ Weq (syncFolder ctx subPath sub destFile w).w
        (syncFolder ctx subPath sub destFile w').w := by
  cases hf : (sub.filter (candFilterB ctx.rt)).isEmpty with
  | true =>
    rw [syncFolder_eq_empty ctx subPath sub destFile w hf,
      syncFolder_eq_empty ctx subPath sub destFile w' hf]
    exact ⟨rfl, rfl, hW⟩
  | false =>
    cases hC : chosenSrc ctx sub with
    | none =>
      rw [syncFolder_eq_none ctx subPath sub destFile w hf hC,
        syncFolder_eq_none ctx subPath sub destFile w' hf hC]
      exact ⟨rfl, rfl, hW⟩
    | some src =>
      rw [syncFolder_eq_some ctx subPath sub destFile w hf hC,
        syncFolder_eq_some ctx subPath sub destFile w' hf hC]
      obtain ⟨he, hw⟩ := transferStep_weq ctx subPath src (targetNameOf destFile) hW
      exact ⟨rfl, he, hw⟩

theorem syncFolder_frame (ctx : Ctx) (subPath : FPath) (sub : List Entry) (destFile : FPath)
    (w : List Entry) (n : String) (hn : ¬ n = targetNameOf destFile) :
    lookupEntry (syncFolder ctx subPath sub destFile w).w n = lookupEntry w n := by
  cases hf : (sub.filter (candFilterB ctx.rt)).isEmpty with
  | true => rw [syncFolder_eq_empty ctx subPath sub destFile w hf]
  | false =>
    cases hC : chosenSrc ctx sub with
    | none => rw [syncFolder_eq_none ctx subPath sub destFile w hf hC]
    | some src =>
      rw [syncFolder_eq_some ctx subPath sub destFile w hf hC]
      exact transferStep_frame ctx subPath src w _ n hn

theorem syncFolder_filter (ctx : Ctx) (subPath : FPath) (sub : List Entry) (destFile : FPath)
    (w : List Entry)
    (hk : ∀ e : Entry, e.name = targetNameOf destFile → destFilterB e = false) :
    ((syncFolder ctx subPath sub destFile w).w).filter destFilterB =
      w.filter destFilterB := by
  cases hf : (sub.filter (candFilterB ctx.rt)).isEmpty with
  | true => rw [syncFolder_eq_empty ctx subPath sub destFile w hf]
  | false =>
    cases hC : chosenSrc ctx sub with
    | none => rw [syncFolder_eq_none ctx subPath sub destFile w hf hC]
    | some src =>
      rw [syncFolder_eq_some ctx subPath sub destFile w hf hC]
      exact transferStep_filter ctx subPath src w _ hk

theorem transferDelta_keep_some {ctx : Ctx} {src : Entry} {t : String} {o : Option Entry}
    {er : Option SyncError} (h : transferDelta ctx src t o = (.keep, er)) :
    er.isSome = true := by
  cases o with
  | none =>
    unfold transferDelta at h
    split_ifs at h <;> simp_all
    all_goals (rw [← h]; rfl)
  | some e =>
    unfold transferDelta at h
    split_ifs at h <;> simp_all
    all_goals (try (split_ifs at h <;> simp_all))
    all_goals (rw [← h]; rfl)

theorem syncFolder_ok (ctx : Ctx) (subPath : FPath) (sub : List Entry) (destFile : FPath)
    (w : List Entry) (hov : ctx.overwrite = true)
    (hok : (syncFolder ctx subPath sub destFile w).err = none) :
    ∃ src, chosenSrc ctx sub = some src ∧ (ctx.copySub = true → src.isDirB = false) ∧
      (syncFolder ctx subPath sub destFile w).events = manualEvs ctx destFile ∧
      (syncFolder ctx subPath sub destFile w).w =
        removeEntry w (targetNameOf destFile) ++
          [mkWritten ctx.copySub subPath src (targetNameOf destFile)] := by
  cases hf : (sub.filter (candFilterB ctx.rt)).isEmpty with
  | true =>
    rw [syncFolder_eq_empty ctx subPath sub destFile w hf] at hok
    exact absurd hok (by simp)
  | false =>
    cases hC : chosenSrc ctx sub with
    | none =>
      rw [syncFolder_eq_none ctx subPath sub destFile w hf hC] at hok
      exact absurd hok (by simp)
    | some src =>
      have h1 := syncFolder_eq_some ctx subPath sub destFile w hf hC
      rw [h1] at hok
      have hts := transferStep_eq_delta ctx subPath src w (targetNameOf destFile)
      rcases hdel : transferDelta ctx src (targetNameOf destFile)
          (lookupEntry w (targetNameOf destFile)) with ⟨d, er⟩
      rw [hdel] at hts
      have her : er = none := by
        rw [hts] at hok
        exact hok
      cases d with
      | keep =>
        have := transferDelta_keep_some hdel
        rw [her] at this
        exact absurd this (by simp)
      | removed =>
        obtain ⟨_, _, hs⟩ := transferDelta_removed hdel
        rw [her] at hs
        exact absurd hs (by simp)
      | written =>
        obtain ⟨_, hsrc⟩ := transferDelta_written hdel
        refine ⟨src, rfl, hsrc, ?_, ?_⟩
        · rw [h1]
        · rw [h1, hts]
          rfl

theorem syncFolder_run_written (ctx : Ctx) (subPath : FPath) (sub : List Entry)
    (destFile : FPath) (w2 : List Entry) (src : Entry)
    (hov : ctx.overwrite = true) (hC : chosenSrc ctx sub = some src)
    (hnd : ctx.copySub = true → src.isDirB = false)
    (h2 : lookupEntry w2 (targetNameOf destFile) =
      some (mkWritten ctx.copySub subPath src (targetNameOf destFile))) :
    syncFolder ctx subPath sub destFile w2 =
      ⟨manualEvs ctx destFile,
        removeEntry w2 (targetNameOf destFile) ++
          [mkWritten ctx.copySub subPath src (targetNameOf destFile)], none⟩ := by
  have hf : (sub.filter (candFilterB ctx.rt)).isEmpty = false := chosenSrc_some_filter ctx sub hC
  rw [syncFolder_eq_some ctx subPath sub destFile w2 hf hC]
  have hts := transferStep_eq_delta ctx subPath src w2 (targetNameOf destFile)
  rw [h2, transferDelta_some_written ctx src (targetNameOf destFile) _ hov
    (mkWritten_existsB _ _ _ _) (mkWritten_isDirB _ _ _ _) hnd] at hts
  rw [hts]
  rfl

theorem pairingStep_self (ctx : Ctx) (e : Entry) (mp : FPath) (w : List Entry)
    (hov : ctx.overwrite = true) :
    pairingStep ctx e mp ((pairingStep ctx e mp w).w) = pairingStep ctx e mp w := by
  unfold pairingStep
  cases hd : e.isDirB with
  | false => rfl
  | true =>
    exact syncFolder_self ctx (ctx.inPath ++ [e.name]) (lookupListing ctx.subListings e.name)
      mp w hov

theorem pairingStep_weq (ctx : Ctx) (e : Entry) (mp : FPath) {w w' : List Entry}
    (hW : Weq w w') :
    (pairingStep ctx e mp w).events = (pairingStep ctx e mp w').events
    ∧ (pairingStep ctx e mp w).err = (pairingStep ctx e mp w').err
    ∧ Weq (pairingStep ctx e mp w).w (pairingStep ctx e mp w').w := by
  unfold pairingStep
  cases hd : e.isDirB with
  | false => exact ⟨rfl, rfl, hW⟩
  | true =>
    exact syncFolder_weq ctx (ctx.inPath ++ [e.name]) (lookupListing ctx.subListings e.name)
      mp hW

theorem pairingStep_frame (ctx : Ctx) (e : Entry) (mp : FPath) (w : List Entry) (n : String)
    (hn : ¬ n = targetNameOf mp) :
    lookupEntry (pairingStep ctx e mp w).w n = lookupEntry w n := by
  unfold pairingStep
  cases hd : e.isDirB with
  | false => rfl
  | true =>
    exact syncFolder_frame ctx (ctx.inPath ++ [e.name]) (lookupListing ctx.subListings e.name)
      mp w n hn

theorem pairingStep_filter (ctx : Ctx) (e : Entry) (mp : FPath) (w : List Entry)
    (hk : ∀ x : Entry, x.name = targetNameOf mp → destFilterB x = false) :
    ((pairingStep ctx e mp w).w).filter destFilterB = w.filter destFilterB := by
  unfold pairingStep
  cases hd : e.isDirB with
  | false => rfl
  | true =>
    exact syncFolder_filter ctx (ctx.inPath ++ [e.name]) (lookupListing ctx.subListings e.name)
      mp w hk

theorem removeKey_some {idx : List (String × FPath)} {k : String} {mp : FPath}
    (h : (removeKey idx k).1 = some mp) : ∃ p ∈ idx, p.1 = k ∧ p.2 = mp := by
  unfold removeKey at h
  cases hf : idx.find? (fun p => p.1 = k) with
  | none => rw [hf] at h; exact Option.noConfusion h
  | some p =>
    rw [hf] at h
    have hfp : p.1 = k := by
      have hq := List.find?_some hf
      simpa using hq
    exact ⟨p, List.mem_of_find?_eq_some hf, hfp, Option.some.inj h⟩

theorem removeKey_snd_mem {idx : List (String × FPath)} {k : String} :
    ∀ p ∈ (removeKey idx k).2, p ∈ idx := by
  unfold removeKey
  cases hf : idx.find? (fun p => p.1 = k) with
  | none => intro p hp; exact hp
  | some q => intro p hp; exact (List.mem_filter.mp hp).1

theorem removeKey_snd_key {idx : List (String × FPath)} {k : String} {mp : FPath}
    (h : (removeKey idx k).1 = some mp) : ∀ p ∈ (removeKey idx k).2, ¬ p.1 = k := by
  unfold removeKey at h ⊢
  cases hf : idx.find? (fun p => p.1 = k) with
  | none => rw [hf] at h; exact Option.noConfusion h
  | some q =>
    intro p hp
    have hq := (List.mem_filter.mp hp).2
    simpa using hq

theorem idxOk_removeKey {idx : List (String × FPath)} {k : String} (h : IdxOk idx) :
    IdxOk (removeKey idx k).2 :=
  fun p hp => h p (removeKey_snd_mem p hp)

theorem mem_targetsOf {m : List (String × FPath)} {p : String × FPath} (hp : p ∈ m) :
    p.1 ++ ".srt" ∈ targetsOf m :=
  List.mem_map.mpr ⟨p, hp, rfl⟩

theorem string_append_right_cancel {a b c : String} (h : a ++ c = b ++ c) : a = b := by
  have hd : a.data ++ c.data = b.data ++ c.data := by
    rw [← String.data_append, ← String.data_append, h]
  have hab := List.append_cancel_right hd
  exact congrArg String.mk hab

theorem targets_not_mem_removeKey {idx : List (String × FPath)} {k : String} {mp : FPath}
    (h : (removeKey idx k).1 = some mp) :
    ¬ (k ++ ".srt") ∈ targetsOf (removeKey idx k).2 := by
  intro hc
  rcases List.mem_map.mp hc with ⟨p, hp, hps⟩
  exact removeKey_snd_key h p hp (string_append_right_cancel hps)

theorem targetsOf_mono {m m' : List (String × FPath)} (hsub : ∀ p ∈ m', p ∈ m) :
    ∀ s ∈ targetsOf m', s ∈ targetsOf m := by
  intro s hs
  rcases List.mem_map.mp hs with ⟨p, hp, hps⟩
  exact List.mem_map.mpr ⟨p, hsub p hp, hps⟩

theorem seasonLoop_nil (ctx : Ctx) (idx : List (String × FPath)) (w : List Entry) :
    seasonLoop ctx [] idx w = ⟨[], w, idx, none⟩ := rfl

theorem seasonLoop_cons_none (ctx : Ctx) (e : Entry) (rest : List Entry)
    (idx : List (String × FPath)) (w : List Entry)
    (hk : (removeKey idx e.name).1 = none) :
    seasonLoop ctx (e :: rest) idx w = seasonLoop ctx rest idx w := by
  rcases hkk : removeKey idx e.name with ⟨o, idx2⟩
  have ho : o = none := by rw [hkk] at hk; exact hk
  subst ho
  simp only [seasonLoop]
  rw [hkk]

theorem seasonLoop_cons_some_err (ctx : Ctx) (e : Entry) (rest : List Entry)
    (idx : List (String × FPath)) (w : List Entry) (mp : FPath)
    (idx2 : List (String × FPath)) (evs : List Event) (w2 : List Entry) (er : SyncError)
    (hk : removeKey idx e.name = (some mp, idx2))
    (hp : pairingStep ctx e mp w = ⟨evs, w2, some er⟩) :
    seasonLoop ctx (e :: rest) idx w =
      ⟨Event.pairingAttempt e.name :: evs, w2, idx2, some er⟩ := by
  simp only [seasonLoop, hk, hp]

theorem seasonLoop_cons_some_ok (ctx : Ctx) (e : Entry) (rest : List Entry)
    (idx : List (String × FPath)) (w : List Entry) (mp : FPath)
    (idx2 : List (String × FPath)) (evs : List Event) (w2 : List Entry)
    (hk : removeKey idx e.name = (some mp, idx2))
    (hp : pairingStep ctx e mp w = ⟨evs, w2, none⟩) :
    seasonLoop ctx (e :: rest) idx w =
      ⟨Event.pairingAttempt e.name :: evs ++ (seasonLoop ctx rest idx2 w2).events,
        (seasonLoop ctx rest idx2 w2).w, (seasonLoop ctx rest idx2 w2).idx,
        (seasonLoop ctx rest idx2 w2).err⟩ := by
  simp only [seasonLoop, hk, hp]

theorem seasonLoop_weq (ctx : Ctx) :
    ∀ (es : List Entry) (idx : List (String × FPath)) {w w' : List Entry}, Weq w w' →
      (seasonLoop ctx es idx w).events = (seasonLoop ctx es idx w').events
      ∧ (seasonLoop ctx es idx w).idx = (seasonLoop ctx es idx w').idx
      ∧ (seasonLoop ctx es idx w).err = (seasonLoop ctx es idx w').err
      ∧ Weq (seasonLoop ctx es idx w).w (seasonLoop ctx es idx w').w := by
  intro es
  induction es with
  | nil =>
    intro idx w w' hW
    exact ⟨rfl, rfl, rfl, hW⟩
  | cons e rest ih =>
    intro idx w w' hW
    rcases hk : removeKey idx e.name with ⟨o, idx2⟩
    cases o with
    | none =>
      have hk1 : (removeKey idx e.name).1 = none := by rw [hk]
      rw [seasonLoop_cons_none ctx e rest idx w hk1,
        seasonLoop_cons_none ctx e rest idx w' hk1]
      exact ih idx hW
    | some mp =>
      obtain ⟨hev, herr, hWw⟩ := pairingStep_weq ctx e mp hW
      rcases hp : pairingStep ctx e mp w with ⟨evs1, w1, er1⟩
      rcases hp2 : pairingStep ctx e mp w' with ⟨evs2, w2, er2⟩
      rw [hp, hp2] at hev herr hWw
      simp only at hev herr hWw
      cases er1 with
      | some er =>
        have her2 : er2 = some er := herr.symm
        rw [her2] at hp2
        rw [seasonLoop_cons_some_err ctx e rest idx w mp idx2 evs1 w1 er hk hp,
          seasonLoop_cons_some_err ctx e rest idx w' mp idx2 evs2 w2 er hk hp2]
        exact ⟨by rw [hev], rfl, rfl, hWw⟩
      | none =>
        have her2 : er2 = none := herr.symm
        rw [her2] at hp2
        rw [seasonLoop_cons_some_ok ctx e rest idx w mp idx2 evs1 w1 hk hp,
          seasonLoop_cons_some_ok ctx e rest idx w' mp idx2 evs2 w2 hk hp2]
        obtain ⟨ie, ii, ir, iw⟩ := ih idx2 hWw
        exact ⟨by rw [hev, ie], by rw [ii], by rw [ir], iw⟩

theorem seasonLoop_frame (ctx : Ctx) :
    ∀ (es : List Entry) (idx : List (String × FPath)) (w : List Entry) (n : String),
      IdxOk idx → ¬ n ∈ targetsOf idx →
      lookupEntry (seasonLoop ctx es idx w).w n = lookupEntry w n := by
  intro es
  induction es with
  | nil => intro idx w n _ _; rfl
  | cons e rest ih =>
    intro idx w n hok hn
    rcases hk : removeKey idx e.name with ⟨o, idx2⟩
    cases o with
    | none =>
      have hk1 : (removeKey idx e.name).1 = none := by rw [hk]
      rw [seasonLoop_cons_none ctx e rest idx w hk1]
      exact ih idx w n hok hn
    | some mp =>
      have hk1 : (removeKey idx e.name).1 = some mp := by rw [hk]
      obtain ⟨p, hpmem, hpk, hpv⟩ := removeKey_some hk1
      have ht : targetNameOf mp = e.name ++ ".srt" := by
        have hh := (hok p hpmem).1
        rw [hpv, hpk] at hh
        exact hh
      have hnt : ¬ n = targetNameOf mp := by
        rw [ht]
        intro hc
        apply hn
        rw [hc, ← hpk]
        exact mem_targetsOf hpmem
      have hok2 : IdxOk idx2 := by
        have := @idxOk_removeKey idx e.name hok
        rw [hk] at this
        exact this
      have hn2 : ¬ n ∈ targetsOf idx2 := by
        intro hc
        apply hn
        refine targetsOf_mono ?_ n hc
        intro q hq
        have := @removeKey_snd_mem idx e.name q
        rw [hk] at this
        exact this hq
      rcases hp : pairingStep ctx e mp w with ⟨evs1, w1, er1⟩
      have hfr : lookupEntry w1 n = lookupEntry w n := by
        have := pairingStep_frame ctx e mp w n hnt
        rw [hp] at this
        exact this
      cases er1 with
      | some er =>
        rw [seasonLoop_cons_some_err ctx e rest idx w mp idx2 evs1 w1 er hk hp]
        exact hfr
      | none =>
        rw [seasonLoop_cons_some_ok ctx e rest idx w mp idx2 evs1 w1 hk hp]
        rw [ih idx2 w1 n hok2 hn2]
        exact hfr

theorem seasonLoop_filter (ctx : Ctx) :
    ∀ (es : List Entry) (idx : List (String × FPath)) (w : List Entry), IdxOk idx →
      ((seasonLoop ctx es idx w).w).filter destFilterB = w.filter destFilterB := by
  intro es
  induction es with
  | nil => intro idx w _; rfl
  | cons e rest ih =>
    intro idx w hok
    rcases hk : removeKey idx e.name with ⟨o, idx2⟩
    cases o with
    | none =>
      have hk1 : (removeKey idx e.name).1 = none := by rw [hk]
      rw [seasonLoop_cons_none ctx e rest idx w hk1]
      exact ih idx w hok
    | some mp =>
      have hk1 : (removeKey idx e.name).1 = some mp := by rw [hk]
      obtain ⟨p, hpmem, hpk, hpv⟩ := removeKey_some hk1
      have ht : targetNameOf mp = e.name ++ ".srt" := by
        have hh := (hok p hpmem).1
        rw [hpv, hpk] at hh
        exact hh
      have hne : ¬ e.name = "" := by
        have hh := (hok p hpmem).2
        rw [hpk] at hh
        exact hh
      have hkent : ∀ x : Entry, x.name = targetNameOf mp → destFilterB x = false := by
        intro x hx
        rw [ht] at hx
        exact destFilterB_of_name_srt hne hx
      have hok2 : IdxOk idx2 := by
        have := @idxOk_removeKey idx e.name hok
        rw [hk] at this
        exact this
      rcases hp : pairingStep ctx e mp w with ⟨evs1, w1, er1⟩
      have hfl : w1.filter destFilterB = w.filter destFilterB := by
        have := pairingStep_filter ctx e mp w hkent
        rw [hp] at this
        exact this
      cases er1 with
      | some er =>
        rw [seasonLoop_cons_some_err ctx e rest idx w mp idx2 evs1 w1 er hk hp]
        exact hfl
      | none =>
        rw [seasonLoop_cons_some_ok ctx e rest idx w mp idx2 evs1 w1 hk hp]
        rw [ih idx2 w1 hok2]
        exact hfl

theorem seasonLoop_self (ctx : Ctx) (hov : ctx.overwrite = true) :
    ∀ (es : List Entry) (idx : List (String × FPath)) (w : List Entry), IdxOk idx →
      (seasonLoop ctx es idx ((seasonLoop ctx es idx w).w)).events =
          (seasonLoop ctx es idx w).events
      ∧ (seasonLoop ctx es idx ((seasonLoop ctx es idx w).w)).idx =
          (seasonLoop ctx es idx w).idx
      ∧ (seasonLoop ctx es idx ((seasonLoop ctx es idx w).w)).err =
          (seasonLoop ctx es idx w).err
      ∧ Weq (seasonLoop ctx es idx ((seasonLoop ctx es idx w).w)).w
          (seasonLoop ctx es idx w).w := by
  intro es
  induction es with
  | nil =>
    intro idx w _
    exact ⟨rfl, rfl, rfl, weq_refl w⟩
  | cons e rest ih =>
    intro idx w hok
    rcases hk : removeKey idx e.name with ⟨o, idx2⟩
    cases o with
    | none =>
      have hk1 : (removeKey idx e.name).1 = none := by rw [hk]
      have hc1 := seasonLoop_cons_none ctx e rest idx w hk1
      rw [hc1]
      have hc2 := seasonLoop_cons_none ctx e rest idx ((seasonLoop ctx rest idx w).w) hk1
      rw [hc2]
      exact ih idx w hok
    | some mp =>
      have hk1 : (removeKey idx e.name).1 = some mp := by rw [hk]
      have hok2 : IdxOk idx2 := by
        have hh := @idxOk_removeKey idx e.name hok
        rw [hk] at hh
        exact hh
      obtain ⟨p, hpmem, hpk, hpv⟩ := removeKey_some hk1
      have ht : targetNameOf mp = e.name ++ ".srt" := by
        have hh := (hok p hpmem).1
        rw [hpv, hpk] at hh
        exact hh
      have htn2 : ¬ targetNameOf mp ∈ targetsOf idx2 := by
        rw [ht]
        have hh := targets_not_mem_removeKey hk1
        rw [hk] at hh
        exact hh
      rcases hp : pairingStep ctx e mp w with ⟨evs1, w1, er1⟩
      cases er1 with
      | some er =>
        have hc1 := seasonLoop_cons_some_err ctx e rest idx w mp idx2 evs1 w1 er hk hp
        rw [hc1]
        have hps := pairingStep_self ctx e mp w hov
        rw [hp] at hps
        have hc2 := seasonLoop_cons_some_err ctx e rest idx w1 mp idx2 evs1 w1 er hk hps
        rw [hc2]
        exact ⟨rfl, rfl, rfl, weq_refl w1⟩
      | none =>
        have hc1 := seasonLoop_cons_some_ok ctx e rest idx w mp idx2 evs1 w1 hk hp
        rw [hc1]
        have hdir : e.isDirB = true := by
          cases hd : e.isDirB with
          | true => rfl
          | false =>
            unfold pairingStep at hp
            rw [hd] at hp
            simp at hp
        have hsync : syncFolder ctx (ctx.inPath ++ [e.name])
            (lookupListing ctx.subListings e.name) mp w = ⟨evs1, w1, none⟩ := by
          unfold pairingStep at hp
          rw [hdir] at hp
          simpa using hp
        have hokk : (syncFolder ctx (ctx.inPath ++ [e.name])
            (lookupListing ctx.subListings e.name) mp w).err = none := by
          rw [hsync]
        obtain ⟨src, hC, hnd, hevents, hwshape⟩ := syncFolder_ok ctx (ctx.inPath ++ [e.name])
          (lookupListing ctx.subListings e.name) mp w hov hokk
        rw [hsync] at hevents hwshape
        simp only at hevents hwshape
        have hlook1 : lookupEntry w1 (targetNameOf mp) =
            some (mkWritten ctx.copySub (ctx.inPath ++ [e.name]) src (targetNameOf mp)) := by
          rw [hwshape, lookupEntry_upsert _ _ _ (mkWritten_name _ _ _ _)]
          simp
        have hlookR : lookupEntry (seasonLoop ctx rest idx2 w1).w (targetNameOf mp) =
            some (mkWritten ctx.copySub (ctx.inPath ++ [e.name]) src (targetNameOf mp)) := by
          rw [seasonLoop_frame ctx rest idx2 w1 (targetNameOf mp) hok2 htn2]
          exact hlook1
        have hrun := syncFolder_run_written ctx (ctx.inPath ++ [e.name])
          (lookupListing ctx.subListings e.name) mp (seasonLoop ctx rest idx2 w1).w src
          hov hC hnd hlookR
        have hp2 : pairingStep ctx e mp (seasonLoop ctx rest idx2 w1).w =
            ⟨evs1, removeEntry (seasonLoop ctx rest idx2 w1).w (targetNameOf mp) ++
              [mkWritten ctx.copySub (ctx.inPath ++ [e.name]) src (targetNameOf mp)],
              none⟩ := by
          unfold pairingStep
          rw [hdir]
          rw [hrun, hevents]
          simp
        have hc2 := seasonLoop_cons_some_ok ctx e rest idx
          ((seasonLoop ctx rest idx2 w1).w) mp idx2 evs1
          (removeEntry (seasonLoop ctx rest idx2 w1).w (targetNameOf mp) ++
            [mkWritten ctx.copySub (ctx.inPath ++ [e.name]) src (targetNameOf mp)]) hk hp2
        rw [hc2]
        have hWup : Weq (removeEntry (seasonLoop ctx rest idx2 w1).w (targetNameOf mp) ++
            [mkWritten ctx.copySub (ctx.inPath ++ [e.name]) src (targetNameOf mp)])
            ((seasonLoop ctx rest idx2 w1).w) :=
          weq_upsert_of_lookup (mkWritten_name _ _ _ _) hlookR
        obtain ⟨ce, ci, cr, cw⟩ := seasonLoop_weq ctx rest idx2 hWup
        obtain ⟨ie, ii, ir, iw⟩ := ih idx2 w1 hok2
        refine ⟨?_, ?_, ?_, ?_⟩
        · simp only []
          rw [ce, ie]
        · simp only []
          rw [ci, ii]
        · simp only []
          rw [cr, ir]
        · simp only []
          exact weq_trans cw iw

theorem setWrite_writeListing (fs : FS) (w : List Entry) :
    (fs.setWrite w).writeListing = w := by
  cases fs with
  | mk o op dl pl ip il sl =>
    unfold FS.setWrite FS.writeListing
    cases o <;> simp

theorem setWrite_inPath (fs : FS) (w : List Entry) : (fs.setWrite w).inPath = fs.inPath := by
  cases fs with
  | mk o op dl pl ip il sl =>
    unfold FS.setWrite
    cases o <;> simp

theorem setWrite_subListings (fs : FS) (w : List Entry) :
    (fs.setWrite w).subListings = fs.subListings := by
  cases fs with
  | mk o op dl pl ip il sl =>
    unfold FS.setWrite
    cases o <;> simp

theorem setWrite_inputListing (fs : FS) (w : List Entry) :
    (fs.setWrite w).inputListing = fs.inputListing := by
  cases fs with
  | mk o op dl pl ip il sl =>
    unfold FS.setWrite
    cases o <;> simp

theorem writeListing_of_dir {fs : FS} (hd : fs.outIsDir = true) :
    fs.writeListing = fs.destListing := by
  unfold FS.writeListing
  rw [hd]
  rfl

theorem computeMode_setWrite (fs : FS) (w : List Entry) :
    computeMode (fs.setWrite w) = computeMode fs := by
  cases fs with
  | mk o op dl pl ip il sl =>
    unfold FS.setWrite computeMode
    cases o <;> simp

theorem buildIndex_setWrite (fs : FS) (w : List Entry)
    (hfil : fs.outIsDir = true → w.filter destFilterB = fs.destListing.filter destFilterB) :
    buildIndex (fs.setWrite w) = buildIndex fs := by
  cases fs with
  | mk o op dl pl ip il sl =>
    unfold FS.setWrite buildIndex
    cases o with
    | false => simp
    | true =>
      have hf := hfil rfl
      simp only at hf
      simp [hf]

theorem finishSeason_fs (evs0 : List Event) (fs : FS) (n : Nat) (lo : LoopOut) :
    (finishSeason evs0 fs n lo).fs = fs.setWrite lo.w := by
  unfold finishSeason
  cases lo.err <;> rfl

theorem finishSingle_fs (evs0 : List Event) (fs : FS) (n : Nat) (so : SyncOut) :
    (finishSingle evs0 fs n so).fs = fs.setWrite so.w := by
  unfold finishSingle
  cases so.err <;> rfl

theorem mem_insertKV {m : List (String × FPath)} {k : String} {v : FPath}
    {p : String × FPath} (h : p ∈ insertKV m k v) : p ∈ m ∨ p = (k, v) := by
  unfold insertKV at h
  by_cases ha : m.any (fun q => q.1 = k)
  · rw [if_pos ha] at h
    rcases List.mem_map.mp h with ⟨q, hq, hqe⟩
    by_cases hqk : q.1 = k
    · rw [if_pos hqk] at hqe
      exact Or.inr hqe.symm
    · rw [if_neg hqk] at hqe
      exact Or.inl (hqe ▸ hq)
  · rw [if_neg ha] at h
    rcases List.mem_append.mp h with hm | hs
    · exact Or.inl hm
    · exact Or.inr (List.mem_singleton.mp hs)

theorem mem_buildIndex_fold (outPath : FPath) :
    ∀ (l : List Entry) (m : List (String × FPath)) (p : String × FPath),
      p ∈ l.foldl (fun m e => insertKV m (fileStem e.name) (outPath ++ [e.name])) m →
      p ∈ m ∨ ∃ e ∈ l, p = (fileStem e.name, outPath ++ [e.name]) := by
  intro l
  induction l with
  | nil =>
    intro m p hp
    exact Or.inl hp
  | cons e l ihl =>
    intro m p hp
    rw [List.foldl_cons] at hp
    rcases ihl _ p hp with hm | ⟨f, hf, hfe⟩
    · rcases mem_insertKV hm with hm2 | he
      · exact Or.inl hm2
      · exact Or.inr ⟨e, List.mem_cons_self e l, he⟩
    · exact Or.inr ⟨f, List.mem_cons_of_mem e hf, hfe⟩

theorem targetNameOf_concat (outPath : FPath) (n : String) :
    targetNameOf (outPath ++ [n]) = fileStem n ++ ".srt" := by
  unfold targetNameOf
  rw [List.getLastD_concat]

theorem buildIndex_idxOk (fs : FS) (hg : GoodFS fs) : IdxOk (buildIndex fs) := by
  intro p hp
  unfold buildIndex at hp
  cases hd : fs.outIsDir with
  | false =>
    rw [hd] at hp
    simp only [Bool.false_eq_true, if_false] at hp
    have hp2 : p = (fileStem (fs.outPath.getLastD ""), fs.outPath) := by simpa using hp
    subst hp2
    exact ⟨rfl, fileStem_ne_empty _ hg.2⟩
  | true =>
    rw [hd] at hp
    simp only [if_true] at hp
    rcases mem_buildIndex_fold fs.outPath _ [] p hp with hm | ⟨e, he, hpe⟩
    · simp at hm
    · have hne : ¬ e.name = "" := hg.1 e (List.mem_filter.mp he).1
      subst hpe
      exact ⟨targetNameOf_concat _ _, fileStem_ne_empty _ hne⟩

theorem single_outIsDir {fs : FS} (hm : computeMode fs = .single) : fs.outIsDir = false := by
  unfold computeMode at hm
  by_cases hc : (fs.outIsDir || fs.inputListing.all Entry.isDirB) = true
  · rw [if_pos hc] at hm
    exact Mode.noConfusion hm
  · cases hd : fs.outIsDir with
    | false => rfl
    | true =>
      exfalso
      apply hc
      rw [hd]
      rfl

theorem runMain_eq_season (fs : FS) (cs ov : Bool) (strat : Strategy) (b : Bool)
    (kw : String) (m : Nat) (hne : (buildIndex fs).isEmpty = false)
    (hm : computeMode fs = .season) :
    runMain fs cs ov strat b kw m =
      finishSeason (Event.promptStrategy ::
          (if strat = .manual then [Event.promptSort] else []) ++ [Event.promptKeyword])
        fs (buildIndex fs).length
        (seasonLoop ⟨strat, sortStratFor strat b, cs, ov, mkRequiredText kw, m,
            fs.inPath, fs.subListings⟩
          (sortByName fs.inputListing) (buildIndex fs) fs.writeListing) := by
  unfold runMain
  simp only [hne, hm, Bool.false_eq_true, if_false]

theorem runMain_eq_single (fs : FS) (cs ov : Bool) (strat : Strategy) (b : Bool)
    (kw : String) (m : Nat) (k : String) (mediaFile : FPath)
    (hne : (buildIndex fs).isEmpty = false) (hm : computeMode fs = .single)
    (hh : (buildIndex fs).head? = some (k, mediaFile)) :
    runMain fs cs ov strat b kw m =
      finishSingle (Event.promptStrategy ::
          (if strat = .manual then [Event.promptSort] else []) ++ [Event.promptKeyword])
        fs (buildIndex fs).length
        (syncFolder ⟨strat, sortStratFor strat b, cs, ov, mkRequiredText kw, m,
            fs.inPath, fs.subListings⟩
          fs.inPath fs.inputListing mediaFile fs.writeListing) := by
  unfold runMain
  simp only [hne, hm, hh, Bool.false_eq_true, if_false]

/-- C8: with the overwrite flag enabled and a non-manual strategy, running
the tool a second time on the filesystem produced by a first run yields the
same final target-file state: the write listing after two runs agrees with
the listing after one run at every name, so the same target paths carry the
same copied bytes or symbolic-link targets. -/
theorem overwrite_idempotent (fs : FS) (cs : Bool) (strat : Strategy) (b : Bool)
    (kw : String) (m : Nat) (n : String) (hg : GoodFS fs) (hman : ¬ strat = .manual) :
    lookupEntry
        (runMain (runMain fs cs true strat b kw m).fs cs true strat b kw m).fs.writeListing
        n =
      lookupEntry (runMain fs cs true strat b kw m).fs.writeListing n := by
  by_cases hE : buildIndex fs = []
  · rw [empty_index_fatal fs cs true strat b kw m hE]
    show lookupEntry (runMain fs cs true strat b kw m).fs.writeListing n =
      lookupEntry fs.writeListing n
    rw [empty_index_fatal fs cs true strat b kw m hE]
  · have hne : (buildIndex fs).isEmpty = false := by
      cases hh : (buildIndex fs).isEmpty with
      | false => rfl
      | true => exact absurd (List.isEmpty_iff.mp hh) hE
    have hIdx : IdxOk (buildIndex fs) := buildIndex_idxOk fs hg
    cases hm : computeMode fs with
    | season =>
      have h1 := runMain_eq_season fs cs true strat b kw m hne hm
      rw [h1, finishSeason_fs, setWrite_writeListing]
      have hfil : fs.outIsDir = true →
          ((seasonLoop ⟨strat, sortStratFor strat b, cs, true, mkRequiredText kw, m,
              fs.inPath, fs.subListings⟩ (sortByName fs.inputListing) (buildIndex fs)
              fs.writeListing).w).filter destFilterB =
            fs.destListing.filter destFilterB := by
        intro hd
        have hsl := seasonLoop_filter ⟨strat, sortStratFor strat b, cs, true,
            mkRequiredText kw, m, fs.inPath, fs.subListings⟩ (sortByName fs.inputListing)
          (buildIndex fs) fs.writeListing hIdx
        exact hsl.trans (congrArg (List.filter destFilterB) (writeListing_of_dir hd))
      have hbi : buildIndex (fs.setWrite ((seasonLoop ⟨strat, sortStratFor strat b, cs,
          true, mkRequiredText kw, m, fs.inPath, fs.subListings⟩
          (sortByName fs.inputListing) (buildIndex fs) fs.writeListing).w)) =
          buildIndex fs :=
        buildIndex_setWrite fs _ hfil
      have hm2 : computeMode (fs.setWrite ((seasonLoop ⟨strat, sortStratFor strat b, cs,
          true, mkRequiredText kw, m, fs.inPath, fs.subListings⟩
          (sortByName fs.inputListing) (buildIndex fs) fs.writeListing).w)) = .season := by
        rw [computeMode_setWrite, hm]
      have hne2 : (buildIndex (fs.setWrite ((seasonLoop ⟨strat, sortStratFor strat b, cs,
          true, mkRequiredText kw, m, fs.inPath, fs.subListings⟩
          (sortByName fs.inputListing) (buildIndex fs) fs.writeListing).w))).isEmpty =
          false := by
        rw [hbi]
        exact hne
      have h2 := runMain_eq_season (fs.setWrite ((seasonLoop ⟨strat, sortStratFor strat b,
          cs, true, mkRequiredText kw, m, fs.inPath, fs.subListings⟩
          (sortByName fs.inputListing) (buildIndex fs) fs.writeListing).w))
        cs true strat b kw m hne2 hm2
      rw [setWrite_inPath, setWrite_subListings, setWrite_inputListing,
        setWrite_writeListing, hbi] at h2
      rw [h2, finishSeason_fs, setWrite_writeListing]
      exact (seasonLoop_self ⟨strat, sortStratFor strat b, cs, true, mkRequiredText kw, m,
          fs.inPath, fs.subListings⟩ rfl (sortByName fs.inputListing) (buildIndex fs)
        fs.writeListing hIdx).2.2.2 n
    | single =>
      rcases hbi0 : buildIndex fs with _ | ⟨p0, restIdx⟩
      · exact absurd hbi0 hE
      · rcases p0 with ⟨k, mediaFile⟩
        have hh : (buildIndex fs).head? = some (k, mediaFile) := by
          rw [hbi0]
          rfl
        have h1 := runMain_eq_single fs cs true strat b kw m k mediaFile hne hm hh
        rw [h1, finishSingle_fs, setWrite_writeListing]
        have hfil : fs.outIsDir = true →
            ((syncFolder ⟨strat, sortStratFor strat b, cs, true, mkRequiredText kw, m,
                fs.inPath, fs.subListings⟩ fs.inPath fs.inputListing mediaFile
                fs.writeListing).w).filter destFilterB =
              fs.destListing.filter destFilterB := by
          intro hd
          rw [single_outIsDir hm] at hd
          exact Bool.noConfusion hd
        have hbi : buildIndex (fs.setWrite ((syncFolder ⟨strat, sortStratFor strat b, cs,
            true, mkRequiredText kw, m, fs.inPath, fs.subListings⟩ fs.inPath
            fs.inputListing mediaFile fs.writeListing).w)) = buildIndex fs :=
          buildIndex_setWrite fs _ hfil
        have hm2 : computeMode (fs.setWrite ((syncFolder ⟨strat, sortStratFor strat b, cs,
            true, mkRequiredText kw, m, fs.inPath, fs.subListings⟩ fs.inPath
            fs.inputListing mediaFile fs.writeListing).w)) = .single := by
          rw [computeMode_setWrite, hm]
        have hne2 : (buildIndex (fs.setWrite ((syncFolder ⟨strat, sortStratFor strat b, cs,
            true, mkRequiredText kw, m, fs.inPath, fs.subListings⟩ fs.inPath
            fs.inputListing mediaFile fs.writeListing).w))).isEmpty = false := by
          rw [hbi]
          exact hne
        have hh2 : (buildIndex (fs.setWrite ((syncFolder ⟨strat, sortStratFor strat b, cs,
            true, mkRequiredText kw, m, fs.inPath, fs.subListings⟩ fs.inPath
            fs.inputListing mediaFile fs.writeListing).w))).head? = some (k, mediaFile) := by
          rw [hbi]
          exact hh
        have h2 := runMain_eq_single (fs.setWrite ((syncFolder ⟨strat, sortStratFor strat b,
            cs, true, mkRequiredText kw, m, fs.inPath, fs.subListings⟩ fs.inPath
            fs.inputListing mediaFile fs.writeListing).w)) cs true strat b kw m k mediaFile
          hne2 hm2 hh2
        rw [setWrite_inPath, setWrite_subListings, setWrite_inputListing,
          setWrite_writeListing, hbi] at h2
        rw [h2, finishSingle_fs, setWrite_writeListing]
        rw [syncFolder_self ⟨strat, sortStratFor strat b, cs, true, mkRequiredText kw, m,
          fs.inPath, fs.subListings⟩ fs.inPath fs.inputListing mediaFile fs.writeListing rfl]

theorem overwrite_idempotent_witness :
    lookupEntry
        (runMain (runMain ⟨true, ["out"],
            [⟨"S01E01.mkv", .regular 1, 100⟩, ⟨"S01E01.srt", .regular 7, 5⟩], [], ["in"],
            [⟨"S01E01", .dir, 0⟩], [("S01E01", [⟨"a.srt", .regular 11, 10⟩])]⟩
          false true .alphabetical true "" 0).fs false true .alphabetical true "" 0).fs.writeListing
        "S01E01.srt" =
      lookupEntry (runMain ⟨true, ["out"],
          [⟨"S01E01.mkv", .regular 1, 100⟩, ⟨"S01E01.srt", .regular 7, 5⟩], [], ["in"],
          [⟨"S01E01", .dir, 0⟩], [("S01E01", [⟨"a.srt", .regular 11, 10⟩])]⟩
        false true .alphabetical true "" 0).fs.writeListing "S01E01.srt" :=
  overwrite_idempotent ⟨true, ["out"],
      [⟨"S01E01.mkv", .regular 1, 100⟩, ⟨"S01E01.srt", .regular 7, 5⟩], [], ["in"],
      [⟨"S01E01", .dir, 0⟩], [("S01E01", [⟨"a.srt", .regular 11, 10⟩])]⟩
    false .alphabetical true "" 0 "S01E01.srt" ⟨by decide, by decide⟩ (by decide)

end Subsync
